import Mathlib

/-!
Shallow embedding of the d0ma1n confusable-domain scanner core
(reverse-map.ts, score.ts, generate.ts, tld.ts, reverse-scan.ts, scan.ts)
and proofs about it.

Modelling conventions:
* A JavaScript string is a list of Unicode code points, `Str := List Nat`.
* JavaScript numbers holding scores and counters are modelled as rationals
  respectively naturals; the floating-point representation is abstracted.
* A JavaScript `Record` or `Map` is an association list in insertion order.
* Unicode case conversion and script detection are platform data; they are
  passed as an explicit environment `JsEnv`.
* Code that can throw is modelled with `Option`: `none` is a thrown error.
-/

namespace D0ma1n

/-- A JavaScript string, as its list of Unicode code points. -/
abbrev Str := List Nat

/-- Convert a Lean string literal to the embedded string type. -/
def str (s : String) : Str := s.data.map Char.toNat

/-- One entry of the external pairwise similarity-weight table.
The JavaScript `idnaPvalid` field is optional and every read in the source
defaults it to `false`, so it is modelled already defaulted. -/
structure ConfusableWeight where
  danger : ℚ
  stableDanger : ℚ
  idnaPvalid : Bool
deriving DecidableEq

/-- The external pairwise weight table `CONFUSABLE_WEIGHTS`
(character to character to weight), an object of objects. -/
abbrev ConfusableWeights := List (Str × List (Str × ConfusableWeight))

/-- The external prototype mapping `CONFUSABLE_MAP_FULL`
(confusable character to its canonical prototype string). -/
abbrev ConfusableMap := List (Str × Str)

/-- Platform-supplied Unicode operations used by the source:
`String.toLowerCase`, `String.toUpperCase` (per code point) and the
script-detector regexes of `reverse-map.ts`. -/
structure JsEnv where
  lowerCp : Nat → Str
  upperCp : Nat → Str
  getScript : Str → String

/-- `s.toLowerCase()` on the embedded strings. -/
def strLower (env : JsEnv) (s : Str) : Str := s.flatMap env.lowerCp

/-- `s.toUpperCase()` on the embedded strings. -/
def strUpper (env : JsEnv) (s : Str) : Str := s.flatMap env.upperCp

/-- `obj[key]`, with `undefined` as `none` (keys in insertion order). -/
def jsGet {β : Type} (obj : List (Str × β)) (key : Str) : Option β :=
  (obj.find? (fun e => decide (e.1 = key))).map (·.2)

/-- `weights[a]?.[b]` on the nested weight table. -/
def weightGet (ws : ConfusableWeights) (a b : Str) : Option ConfusableWeight :=
  (jsGet ws a).bind (fun t => jsGet t b)

/-- A confusable substitute stored in a bucket (`types.ts`). -/
structure ConfusableSubstitute where
  char : Str
  codepoint : Str
  script : String
  danger : ℚ
  stableDanger : ℚ
  idnaPvalid : Bool
deriving DecidableEq

/-- A single applied character substitution (`types.ts`). -/
structure Substitution where
  position : Nat
  original : Str
  replacement : Str
  codepoint : Str
  script : String
  danger : ℚ
  stableDanger : ℚ
  idnaPvalid : Bool
deriving DecidableEq

/-- A mutated label plus the substitutions that produced it (`generate.ts`). -/
structure RawVariant where
  label : Str
  substitutions : List Substitution
deriving DecidableEq

/-- One uppercase hexadecimal digit. -/
def hexDigit (n : Nat) : Nat := if n < 10 then 0x30 + n else 0x41 + (n - 10)

/-- `cp.toString(16).toUpperCase()`. -/
def hexRep (n : Nat) : List Nat := (Nat.toDigits 16 n).map (fun c => c.toUpper.toNat)

/-- `padStart(4, "0")`. -/
def padStart4 (l : List Nat) : List Nat := List.replicate (4 - l.length) 0x30 ++ l

/-- `toCodepoint` from reverse-map.ts: format a character as `U+XXXX`. -/
def toCodepoint (ch : Str) : Str :=
  match ch.head? with
  | none => str "U+0000"
  | some cp => str "U+" ++ padStart4 (hexRep cp)

/-! ## score.ts -/

/-- Options accepted by the scorer (`types.ts`), with absent fields `none`. -/
structure ScoreOptions where
  useMaxDanger : Option Bool := none
  font : Option String := none

/-- `sub[scoreKey]` where the key is `danger` if `useMaxDanger` else
`stableDanger`. -/
def subScore (useMax : Bool) (s : Substitution) : ℚ :=
  if useMax then s.danger else s.stableDanger

/-- Same selection on a bucket entry. -/
def entryScore (useMax : Bool) (s : ConfusableSubstitute) : ℚ :=
  if useMax then s.danger else s.stableDanger

/-- `Math.max(0, Math.min(1, x))`. -/
def clamp01 (x : ℚ) : ℚ := max 0 (min 1 x)

/-- The number of distinct scripts among the substitutions
(`new Set(substitutions.map(s => s.script)).size`). -/
def distinctScripts (subs : List Substitution) : Nat :=
  ((subs.map (·.script)).dedup).length

/-- `computeDangerScore` from score.ts: composite danger score of a variant. -/
def computeDangerScore (substitutions : List Substitution)
    (options : ScoreOptions) : ℚ :=
  if substitutions.length = 0 then 0
  else
    let useMax := options.useMaxDanger.getD false
    let product := substitutions.foldl (fun acc sub => acc * subScore useMax sub) 1
    let editPenalty : ℚ := 1 - (1/10) * ((substitutions.length : ℚ) - 1)
    let score := product * editPenalty
    let score2 := if 1 < distinctScripts substitutions then score * (9/10) else score
    max 0 (min 1 score2)

/-! ## tld.ts -/

/-- The known multi-part TLD list from `splitDomain`. -/
def knownMultiPart : List Str :=
  [str "co.uk", str "com.au", str "co.nz", str "co.jp", str "com.br",
   str "co.kr", str "co.in", str "com.mx", str "com.cn", str "org.uk",
   str "net.au", str "ac.uk"]

/-- `replace(/\.$/, "")`: drop one trailing dot when present. -/
def stripTrailingDot (s : Str) : Str :=
  match s.getLast? with
  | some 0x2E => s.dropLast
  | _ => s

/-- `lastIndexOf` on the embedded strings, `-1` when absent. -/
def lastIndexOf (l : Str) (c : Nat) : Int :=
  match l.reverse.findIdx? (fun x => decide (x = c)) with
  | some j => (l.length : Int) - 1 - j
  | none => -1

/-- The label/TLD pair returned by `splitDomain`. -/
structure LabelTld where
  label : Str
  tld : Str
deriving DecidableEq

/-- `splitDomain` from tld.ts: lowercase, strip one trailing dot, then split
at a known multi-part TLD (first match in list order) or at the last dot;
a dotless domain defaults to the `com` TLD. -/
def splitDomain (env : JsEnv) (domain : Str) : LabelTld :=
  let lower := stripTrailingDot (strLower env domain)
  match knownMultiPart.find? (fun tld => (0x2E :: tld).isSuffixOf lower) with
  | some tld => ⟨lower.take (lower.length - (tld.length + 1)), tld⟩
  | none =>
    let lastDot := lastIndexOf lower 0x2E
    if lastDot = -1 then ⟨lower, str "com"⟩
    else ⟨lower.take lastDot.toNat, lower.drop (lastDot.toNat + 1)⟩

/-- Insertion into a JavaScript `Set` kept as an insertion-ordered list. -/
def setAdd {α : Type} [DecidableEq α] (l : List α) (x : α) : List α :=
  if x ∈ l then l else l ++ [x]

/-- `new Set(iterable)`. -/
def listToSet {α : Type} [DecidableEq α] (l : List α) : List α :=
  l.foldl setAdd []

/-- `DEFAULT_TLDS` from tld.ts. -/
def DEFAULT_TLDS : List Str := [str "com", str "net", str "org", str "io"]

/-- `IDN_TLDS` from tld.ts. -/
def IDN_TLDS : List (String × List Str) :=
  [("Cyrillic", [str "xn--p1ai"]),
   ("Arabic", [str "xn--mgbaam7a8h"]),
   ("Han", [str "xn--fiqs8s", str "xn--fiqz9s"]),
   ("Korean", [str "xn--3e0b707e"]),
   ("Thai", [str "xn--o3cw4h"]),
   ("Devanagari", [str "xn--h2brj9c"])]

/-! ## reverse-map.ts: the confusable graph builder -/

/-- Options for `buildPrototypeBuckets`; absent fields are `none`. -/
structure BuildOptions where
  includeNonPvalid : Option Bool := none
  maxPerChar : Option Nat := none
  useMaxDanger : Option Bool := none

/-- A bucket under construction: the `Map` from target character to its
substitute record, in insertion order. -/
abbrev RawBucket := List (Str × ConfusableSubstitute)

/-- The `raw` record of buckets under construction, in insertion order. -/
abbrev RawBuckets := List (Str × RawBucket)

/-- `ensureBucket`: create an empty bucket for the key if absent. -/
def ensureBucket (raw : RawBuckets) (proto : Str) : RawBuckets :=
  if (jsGet raw proto).isSome then raw else raw ++ [(proto, [])]

/-- `Map.set`: overwrite in place when the key exists, else append. -/
def mapSet (m : RawBucket) (k : Str) (v : ConfusableSubstitute) : RawBucket :=
  if (jsGet m k).isSome then m.map (fun e => if e.1 = k then (k, v) else e)
  else m ++ [(k, v)]

/-- Apply a function to the bucket stored under a key. -/
def rawUpdate (raw : RawBuckets) (k : Str) (f : RawBucket → RawBucket) : RawBuckets :=
  raw.map (fun e => if e.1 = k then (e.1, f e.2) else e)

/-- Lookup of an edge target inside a bucket of the raw state. -/
def bucketGet (raw : RawBuckets) (frm sub : Str) : Option ConfusableSubstitute :=
  (jsGet raw frm).bind (fun m => jsGet m sub)

/-- `addEdge` from `buildPrototypeBuckets`: record that `frm` can be spoofed
by `sub`. Skips self-edges and (unless `includeNonPvalid`) non-PVALID edges;
on a duplicate target it overwrites only when the incoming `stableDanger` is
strictly higher, in that case OR-ing the `idnaPvalid` flags. -/
def addEdge (env : JsEnv) (includeNonPvalid : Bool) (raw : RawBuckets)
    (frm sub : Str) (danger stableDanger : ℚ) (idnaPvalid : Bool) : RawBuckets :=
  if frm = sub then raw
  else if ¬includeNonPvalid ∧ ¬idnaPvalid then raw
  else
    let raw1 := ensureBucket raw frm
    match bucketGet raw1 frm sub with
    | some existing =>
        if existing.stableDanger < stableDanger then
          rawUpdate raw1 frm (fun m => mapSet m sub
            { existing with
                danger := danger, stableDanger := stableDanger,
                idnaPvalid := existing.idnaPvalid || idnaPvalid })
        else raw1
    | none =>
        rawUpdate raw1 frm (fun m => mapSet m sub
          { char := sub,
            codepoint := toCodepoint sub,
            script := env.getScript sub,
            danger := danger,
            stableDanger := stableDanger,
            idnaPvalid := idnaPvalid })

/-- The four-way weight lookup used for `CONFUSABLE_MAP_FULL` entries. -/
def lookupMapWeight (env : JsEnv) (weights : ConfusableWeights)
    (c proto : Str) : Option ConfusableWeight :=
  weightGet weights c proto <|> weightGet weights proto c
    <|> weightGet weights c (strUpper env proto)
    <|> weightGet weights (strUpper env proto) c

/-- Source 1 of the builder: fold the TR39 prototype mapping, adding each
edge in both directions with its looked-up (or default `0.5`) weight. -/
def mapPhase (env : JsEnv) (includeNonPvalid : Bool) (weights : ConfusableWeights)
    (raw : RawBuckets) (entries : ConfusableMap) : RawBuckets :=
  entries.foldl (fun raw e =>
    if e.1 = e.2 then raw
    else
      let w := lookupMapWeight env weights e.1 e.2
      let danger := (w.map (·.danger)).getD (1/2)
      let stableDanger := (w.map (·.stableDanger)).getD (1/2)
      let idnaPvalid := (w.map (·.idnaPvalid)).getD false
      addEdge env includeNonPvalid
        (addEdge env includeNonPvalid raw e.2 e.1 danger stableDanger idnaPvalid)
        e.1 e.2 danger stableDanger idnaPvalid) raw

/-- Source 2 of the builder: fold the pairwise weight table, adding each
scored pair in both directions with lower-cased bucket anchors. -/
def weightPhase (env : JsEnv) (includeNonPvalid : Bool) (raw : RawBuckets)
    (weights : ConfusableWeights) : RawBuckets :=
  weights.foldl (fun raw kv =>
    kv.2.foldl (fun raw tv =>
      let aLower := strLower env kv.1
      let bLower := strLower env tv.1
      addEdge env includeNonPvalid
        (addEdge env includeNonPvalid raw aLower tv.1
          tv.2.danger tv.2.stableDanger tv.2.idnaPvalid)
        bLower kv.1 tv.2.danger tv.2.stableDanger tv.2.idnaPvalid) raw) raw

/-- The raw (pre-finalize) bucket state produced by the two sources. -/
def rawBuckets (env : JsEnv) (includeNonPvalid : Bool)
    (cmap : ConfusableMap) (weights : ConfusableWeights) : RawBuckets :=
  weightPhase env includeNonPvalid (mapPhase env includeNonPvalid weights [] cmap) weights

/-- The finalized bucket structure: prototype to its capped, ranked list. -/
abbrev PrototypeBuckets := List (Str × List ConfusableSubstitute)

/-- Step 3 of the builder: sort every bucket descending by the configured
score key and truncate to `maxPerChar`. -/
def finalizeBuckets (useMaxDanger : Bool) (maxPerChar : Nat)
    (raw : RawBuckets) : PrototypeBuckets :=
  raw.map (fun e =>
    (e.1, ((e.2.map (·.2)).mergeSort
      (fun a b => decide (entryScore useMaxDanger b ≤ entryScore useMaxDanger a))).take
        maxPerChar))

/-- `buildPrototypeBuckets` from reverse-map.ts. -/
def buildPrototypeBuckets (env : JsEnv) (options : BuildOptions)
    (cmap : ConfusableMap) (weights : ConfusableWeights) : PrototypeBuckets :=
  finalizeBuckets (options.useMaxDanger.getD false) (options.maxPerChar.getD 50)
    (rawBuckets env (options.includeNonPvalid.getD false) cmap weights)

/-! ## reverse-scan.ts: the Bootstring (RFC 3492) decoder -/

/-- `digitValue` from `decodePunycodeLabel`: 0-9 are 26-35, A-Z and a-z are
0-25, anything else is the out-of-range value 36. -/
def digitValue (c : Nat) : Nat :=
  if 0x30 ≤ c ∧ c ≤ 0x39 then c - 0x30 + 26
  else if 0x41 ≤ c ∧ c ≤ 0x5A then c - 0x41
  else if 0x61 ≤ c ∧ c ≤ 0x7A then c - 0x61
  else 36

/-- The digit threshold `t = clamp(k - bias, TMIN, TMAX)` as written inline
in the decoder loop. -/
def bsThreshold (k bias : Nat) : Nat :=
  if k ≤ bias then 1 else if bias + 26 ≤ k then 26 else k - bias

/-- The `while` loop of `adapt`. -/
def adaptLoop (delta k : Nat) : Nat × Nat :=
  if h : 455 < delta then adaptLoop (delta / 35) (k + 36) else (delta, k)
termination_by delta
decreasing_by exact Nat.div_lt_self (by omega) (by omega)

/-- `adapt` from `decodePunycodeLabel` (RFC 3492 bias adaptation with
DAMP 700, SKEW 38, BASE 36, TMIN 1, TMAX 26). -/
def adapt (delta numPoints : Nat) (first : Bool) : Nat :=
  let d0 := if first then delta / 700 else delta / 2
  let d1 := d0 + d0 / numPoints
  let r := adaptLoop d1 0
  r.2 + (36 * r.1) / (r.1 + 38)

/-- The inner digit-reading `while (true)` loop of the decoder: reads one
variable-length integer starting at `pos`, accumulating into `i` with
running weight `w` and digit index `k`; returns the new `i` and position.
A digit value of 36 or more, or the end of the input, truncates the read. -/
def readDigits (enc : Str) (bias : Nat) (pos i w k : Nat) : Nat × Nat :=
  if h : pos < enc.length then
    if 36 ≤ digitValue (enc.get ⟨pos, h⟩) then (i, pos + 1)
    else if digitValue (enc.get ⟨pos, h⟩) < bsThreshold k bias then
      (i + digitValue (enc.get ⟨pos, h⟩) * w, pos + 1)
    else
      readDigits enc bias (pos + 1) (i + digitValue (enc.get ⟨pos, h⟩) * w)
        (w * (36 - bsThreshold k bias)) (k + 36)
  else (i, pos)
termination_by enc.length - pos
decreasing_by omega

/-- The digit loop never moves the read position backwards. -/
theorem readDigits_pos_le (enc : Str) (bias : Nat) :
    ∀ pos i w k, pos ≤ (readDigits enc bias pos i w k).2 := by
  have H : ∀ m pos i w k, enc.length - pos ≤ m →
      pos ≤ (readDigits enc bias pos i w k).2 := by
    intro m
    induction m with
    | zero =>
      intro pos i w k hm
      rw [readDigits]
      have hlt : ¬ pos < enc.length := by omega
      simp [hlt]
    | succ m ih =>
      intro pos i w k hm
      rw [readDigits]
      by_cases h : pos < enc.length
      · simp only [dif_pos h]
        split
        · simp
        · split
          · simp
          · have := ih (pos + 1) (i + digitValue (enc.get ⟨pos, h⟩) * w)
              (w * (36 - bsThreshold k bias)) (k + 36) (by omega)
            omega
      · simp [h]
  intro pos i w k
  exact H (enc.length - pos) pos i w k le_rfl

/-- The digit loop consumes at least one character when input remains. -/
theorem readDigits_pos_lt (enc : Str) (bias : Nat) (pos i w k : Nat)
    (h : pos < enc.length) : pos < (readDigits enc bias pos i w k).2 := by
  rw [readDigits]
  simp only [dif_pos h]
  split
  · simp
  · split
    · simp
    · have := readDigits_pos_le enc bias (pos + 1)
        (i + digitValue (enc.get ⟨pos, h⟩) * w) (w * (36 - bsThreshold k bias)) (k + 36)
      omega

/-- The outer decode loop of `decodePunycodeLabel`. One iteration reads the
next delta, adapts the bias, advances the codepoint `n` and insertion index,
and splices the decoded character into the output. `String.fromCodePoint`
raises `RangeError` past the Unicode range, modelled as `none`. -/
def decodeLoop (enc : Str) (pos n bias i : Nat) (output : List Nat) : Option (List Nat) :=
  if h : pos < enc.length then
    let r := readDigits enc bias pos i 1 36
    let len := output.length + 1
    let bias2 := adapt (r.1 - i) len (i == 0)
    let n2 := n + r.1 / len
    if 0x10FFFF < n2 then none
    else decodeLoop enc r.2 n2 bias2 (r.1 % len + 1) (output.insertIdx (r.1 % len) n2)
  else some output
termination_by enc.length - pos
decreasing_by
  have h2 := readDigits_pos_lt enc bias pos i 1 36 h
  omega

/-- `decodePunycodeLabel` from reverse-scan.ts: decode one ACE label;
inputs without the `xn--` marker are returned unchanged. `none` is the
`RangeError` the source can raise from `String.fromCodePoint`. -/
def decodePunycodeLabel (input : Str) : Option Str :=
  if input.take 4 = str "xn--" then
    let encoded := input.drop 4
    let lastDelim := lastIndexOf encoded 0x2D
    let basicChars := if 0 < lastDelim then encoded.take lastDelim.toNat else []
    let pos := if 0 < lastDelim then lastDelim.toNat + 1 else 0
    decodeLoop encoded pos 128 72 0 basicChars
  else some input

/-- `domain.split(".")`. -/
def splitOnDot (s : Str) : List Str := s.splitOn 0x2E

/-- `labels.join(".")`. -/
def joinDots (ls : List Str) : Str := List.intercalate [0x2E] ls

/-- `fromPunycode` from reverse-scan.ts: decode every label of a domain. -/
def fromPunycode (domain : Str) : Option Str :=
  ((splitOnDot domain).mapM decodePunycodeLabel).map joinDots

/-! ## The Bootstring encoder

Modelled from the spec: the source's `toPunycode` (score.ts) delegates ACE
encoding to the platform URL API, which is not part of the repository. The
spec describes it as the standard IDNA ASCII-Compatible-Encoding transform
(RFC 3492 Bootstring with the same constants as the decoder above). The
encoder below produces, for each non-basic code point taken in increasing
(codepoint, position) order, the delta that drives the decoder state
machine from its previous (codepoint, insertion index) state to the new
one, emitting each delta as a variable-length integer under the adapting
bias — exactly the insertion-unsort coding of RFC 3492 section 3.2. -/

/-- The code point of a digit (lowercase letters then digits). -/
def digitChar (d : Nat) : Nat := if d < 26 then 0x61 + d else 0x30 + (d - 26)

/-- Emit the variable-length integer encoding of `q` under `bias`,
starting at digit index `k` (RFC 3492 section 6.3 inner loop). -/
def encodeDigits (bias q k : Nat) : List Nat :=
  if hq : q < bsThreshold k bias then [digitChar q]
  else
    digitChar (bsThreshold k bias + (q - bsThreshold k bias) % (36 - bsThreshold k bias)) ::
      encodeDigits bias ((q - bsThreshold k bias) / (36 - bsThreshold k bias)) (k + 36)
termination_by q
decreasing_by
  have h1 : 1 ≤ bsThreshold k bias := by unfold bsThreshold; split <;> [omega; split <;> omega]
  have h26 : bsThreshold k bias ≤ 26 := by unfold bsThreshold; split <;> [omega; split <;> omega]
  have := Nat.div_le_self (q - bsThreshold k bias) (36 - bsThreshold k bias)
  omega

/-- The encoder's running state, mirroring the decoder state machine:
the output built so far (original index paired with each code point, kept
sorted by index), the current codepoint `n`, the decoder insertion index
`i` (one past the last insertion), and the current bias. -/
structure EncState where
  out : List (Nat × Nat)
  n : Nat
  i : Nat
  bias : Nat

/-- Encode one insertion `(codepoint, original index)`: compute the delta
that moves the decoder to this insertion, emit its digits, and advance the
state (RFC 3492 delta = steps of the (n, i) walk). -/
def encStep (st : EncState) (q : Nat × Nat) : List Nat × EncState :=
  let p := st.out.countP (fun e => decide (e.1 < q.2))
  let len := st.out.length + 1
  let delta := (q.1 - st.n) * len + p - st.i
  (encodeDigits st.bias delta 36,
   { out := st.out.insertIdx p (q.2, q.1), n := q.1, i := p + 1,
     bias := adapt delta len (st.i == 0) })

/-- Encode a list of insertions in order, concatenating the digit groups. -/
def encodeInsertions (st : EncState) : List (Nat × Nat) → List Nat × EncState
  | [] => ([], st)
  | q :: rest =>
    let s1 := encStep st q
    let s2 := encodeInsertions s1.2 rest
    (s1.1 ++ s2.1, s2.2)

/-- Lexicographic order on (codepoint, original index) pairs: the order in
which RFC 3492 encodes insertions. -/
def lexLeB (a b : Nat × Nat) : Bool :=
  decide (a.1 < b.1 ∨ (a.1 = b.1 ∧ a.2 ≤ b.2))

/-- Bootstring-encode one label (RFC 3492 section 6.3): basic code points
first, a delimiter when any are present, then the delta digits for the
non-basic code points in increasing (codepoint, position) order. -/
def punycodeEncode (label : Str) : Str :=
  let basic := label.filter (fun c => decide (c < 128))
  let ins := ((label.enum.filter (fun e => decide (128 ≤ e.2))).map
      (fun e => (e.2, e.1))).mergeSort lexLeB
  let st0 : EncState := ⟨label.enum.filter (fun e => decide (e.2 < 128)), 128, 0, 72⟩
  basic ++ (if basic.isEmpty then [] else [0x2D]) ++ (encodeInsertions st0 ins).1

/-- ACE form of one label: ASCII labels pass through, others get the
`xn--` marker plus their Bootstring encoding. -/
def encodeLabelACE (label : Str) : Str :=
  if label.all (fun c => decide (c < 128)) then label
  else str "xn--" ++ punycodeEncode label

/-- Modelled from the spec: `toPunycode` from score.ts (the standard IDNA
ACE transform of the full domain, via the platform URL API in the source).
ASCII-only domains pass through unchanged; a malformed domain — one with a
code point outside the Unicode range, which cannot be encoded — is returned
unchanged rather than raising, mirroring the source's catch-all. -/
def toPunycode (domain : Str) : Str :=
  if domain.all (fun c => decide (c ≤ 0x10FFFF)) then
    joinDots ((splitOnDot domain).map encodeLabelACE)
  else domain

/-! ## generate.ts: the variant generator -/

/-- Options for `generateVariants`; absent fields are `none`. -/
structure GenerateOptions where
  maxEdits : Option Nat := none
  maxPerChar : Option Nat := none
  maxVariants : Option Nat := none
  includeNonPvalid : Option Bool := none
  useMaxDanger : Option Bool := none

/-- The generator's mutable state: the seen-set of mutated labels and the
accepted variants, both in insertion order. -/
structure GenState where
  seen : List Str
  variants : List RawVariant

/-- `makeSubstitution` from generate.ts. -/
def makeSubstitution (position : Nat) (original : Str)
    (sub : ConfusableSubstitute) : Substitution :=
  ⟨position, original, sub.char, sub.codepoint, sub.script,
    sub.danger, sub.stableDanger, sub.idnaPvalid⟩

/-- `tryAdd` from `generateVariants`: `false` means the variant cap was hit
(the enumeration stops); a duplicate mutated label is skipped silently. The
mutated label is a character array (one slot per original position) that is
joined on acceptance. -/
def tryAdd (maxVariants : Nat) (st : GenState) (mutatedChars : List Str)
    (subs : List Substitution) : GenState × Bool :=
  if maxVariants ≤ st.variants.length then (st, false)
  else
    if mutatedChars.flatten ∈ st.seen then (st, true)
    else (⟨st.seen ++ [mutatedChars.flatten],
           st.variants ++ [⟨mutatedChars.flatten, subs⟩]⟩, true)

/-- The inner loop of the 1-edit pass: try each substitute at position `i`.
The boolean is `false` when the cap stopped the enumeration. -/
def oneEditInner (maxVariants : Nat) (chars : Str) (i : Nat) (proto : Nat) :
    List ConfusableSubstitute → GenState → GenState × Bool
  | [], st => (st, true)
  | sub :: rest, st =>
    let r := tryAdd maxVariants st ((chars.map (fun c => [c])).set i sub.char)
      [makeSubstitution i [proto] sub]
    if r.2 then oneEditInner maxVariants chars i proto rest r.1 else (r.1, false)

/-- The 1-edit pass of `generateVariants`, iterating the enumerated label
positions; a position without a bucket contributes nothing. -/
def oneEditPass (maxPerChar maxVariants : Nat) (buckets : PrototypeBuckets)
    (chars : Str) : List (Nat × Nat) → GenState → GenState × Bool
  | [], st => (st, true)
  | (i, proto) :: rest, st =>
    match jsGet buckets [proto] with
    | none => oneEditPass maxPerChar maxVariants buckets chars rest st
    | some subs =>
      let r := oneEditInner maxVariants chars i proto (subs.take maxPerChar) st
      if r.2 then oneEditPass maxPerChar maxVariants buckets chars rest r.1
      else (r.1, false)

/-- Innermost loop of the 2-edit pass: cross `subI` at position `i` with
each top substitute at position `j`. -/
def twoEditInnerJ (maxVariants : Nat) (chars : Str) (i j : Nat) (ci cj : Nat)
    (subI : ConfusableSubstitute) :
    List ConfusableSubstitute → GenState → GenState × Bool
  | [], st => (st, true)
  | subJ :: rest, st =>
    let r := tryAdd maxVariants st
      (((chars.map (fun c => [c])).set i subI.char).set j subJ.char)
      [makeSubstitution i [ci] subI, makeSubstitution j [cj] subJ]
    if r.2 then twoEditInnerJ maxVariants chars i j ci cj subI rest r.1
    else (r.1, false)

/-- Loop over the top substitutes for position `i` of the 2-edit pass. -/
def twoEditInnerI (maxVariants : Nat) (chars : Str) (i j : Nat) (ci cj : Nat)
    (topJ : List ConfusableSubstitute) :
    List ConfusableSubstitute → GenState → GenState × Bool
  | [], st => (st, true)
  | subI :: rest, st =>
    let r := twoEditInnerJ maxVariants chars i j ci cj subI topJ st
    if r.2 then twoEditInnerI maxVariants chars i j ci cj topJ rest r.1
    else (r.1, false)

/-- Loop over the second position `j` (the enumerated positions after `i`)
of the 2-edit pass. -/
def twoEditJ (maxPerChar maxVariants : Nat) (buckets : PrototypeBuckets)
    (chars : Str) (i : Nat) (ci : Nat) (subsI : List ConfusableSubstitute) :
    List (Nat × Nat) → GenState → GenState × Bool
  | [], st => (st, true)
  | (j, cj) :: rest, st =>
    match jsGet buckets [cj] with
    | none => twoEditJ maxPerChar maxVariants buckets chars i ci subsI rest st
    | some subsJ =>
      let r := twoEditInnerI maxVariants chars i j ci cj
        (subsJ.take (min maxPerChar 5)) (subsI.take (min maxPerChar 5)) st
      if r.2 then twoEditJ maxPerChar maxVariants buckets chars i ci subsI rest r.1
      else (r.1, false)

/-- Loop over the first position `i` of the 2-edit pass. In the source `i`
stops before the last position; iterating it with an empty `j` range is
state-identical. -/
def twoEditI (maxPerChar maxVariants : Nat) (buckets : PrototypeBuckets)
    (chars : Str) : List (Nat × Nat) → GenState → GenState × Bool
  | [], st => (st, true)
  | (i, ci) :: rest, st =>
    match jsGet buckets [ci] with
    | none => twoEditI maxPerChar maxVariants buckets chars rest st
    | some subsI =>
      let r := twoEditJ maxPerChar maxVariants buckets chars i ci subsI rest st
      if r.2 then twoEditI maxPerChar maxVariants buckets chars rest r.1
      else (r.1, false)

/-- `aggregateScore` from generate.ts: product of the score key over the
substitutions times the multi-edit penalty. -/
def aggregateScore (subs : List Substitution) (useMax : Bool) : ℚ :=
  if subs.length = 0 then 0
  else (subs.foldl (fun acc s => acc * subScore useMax s) 1)
    * (1 - (1/10) * ((subs.length : ℚ) - 1))

/-- `finalize` from generate.ts: sort descending by aggregate score. -/
def finalize (variants : List RawVariant) (useMax : Bool) : List RawVariant :=
  variants.mergeSort (fun a b =>
    decide (aggregateScore b.substitutions useMax ≤ aggregateScore a.substitutions useMax))

/-- `generateVariants` from generate.ts. `buckets` is the optional shared
bucket structure; when absent the builder runs with the generator options.
An early exit of either pass (cap reached) finalizes the state so far. -/
def generateVariants (env : JsEnv) (label : Str) (options : GenerateOptions)
    (buckets : Option PrototypeBuckets) (cmap : ConfusableMap)
    (ws : ConfusableWeights) : List RawVariant :=
  let maxEdits := options.maxEdits.getD 2
  let maxPerChar := options.maxPerChar.getD 10
  let maxVariants := options.maxVariants.getD 5000
  let useMaxDanger := options.useMaxDanger.getD false
  let protoBuckets := buckets.getD (buildPrototypeBuckets env
    ⟨options.includeNonPvalid, some maxPerChar, some useMaxDanger⟩ cmap ws)
  let chars := strLower env label
  let r1 := oneEditPass maxPerChar maxVariants protoBuckets chars chars.enum ⟨[], []⟩
  if ¬ r1.2 then finalize r1.1.variants useMaxDanger
  else if 2 ≤ maxEdits then
    finalize (twoEditI maxPerChar maxVariants protoBuckets chars chars.enum r1.1).1.variants
      useMaxDanger
  else finalize r1.1.variants useMaxDanger

/-! ## score.ts: font search, variant scoring -/

/-- Generic object lookup for non-string-keyed records. -/
def objGet {κ β : Type} [DecidableEq κ] (obj : List (κ × β)) (key : κ) : Option β :=
  (obj.find? (fun e => decide (e.1 = key))).map (·.2)

/-- The four-way bidirectional lookup of `findBestFont` (with the
uppercase-ASCII fallback on the original side). -/
def fontLookup (env : JsEnv) (weights : ConfusableWeights)
    (sub : Substitution) : Option ConfusableWeight :=
  weightGet weights sub.replacement sub.original
    <|> weightGet weights sub.original sub.replacement
    <|> weightGet weights sub.replacement (strUpper env sub.original)
    <|> weightGet weights (strUpper env sub.original) sub.replacement

/-- The per-font product over a variant's substitutions: `none` when any
substitution is missing from the font's table (the `allFound` break). -/
def fontProduct (env : JsEnv) (weights : ConfusableWeights)
    (substitutions : List Substitution) : Option ℚ :=
  substitutions.foldl (fun acc sub =>
    acc.bind (fun p => (fontLookup env weights sub).map (fun w => p * w.danger)))
    (some 1)

/-- `findBestFont` from score.ts: the font with the highest full-coverage
product, `none` when no font covers every substitution. -/
def findBestFont (env : JsEnv) (fonts : List (String × ConfusableWeights))
    (substitutions : List Substitution) : Option (String × ℚ) :=
  let r := fonts.foldl (fun (acc : Option String × ℚ) f =>
    match fontProduct env f.2 substitutions with
    | some prod => if acc.2 < prod then (some f.1, prod) else acc
    | none => acc) (none, 0)
  match r with
  | (some f, s) => some (f, s)
  | (none, _) => none

/-- The two-way lookup of the explicit-font path of `scoreVariants`
(no uppercase fallback there). -/
def fontLookup2 (weights : ConfusableWeights) (sub : Substitution) :
    Option ConfusableWeight :=
  weightGet weights sub.replacement sub.original
    <|> weightGet weights sub.original sub.replacement

/-- The explicit-font product of `scoreVariants`, `none` on partial
coverage. -/
def fontProduct2 (weights : ConfusableWeights)
    (substitutions : List Substitution) : Option ℚ :=
  substitutions.foldl (fun acc sub =>
    acc.bind (fun p => (fontLookup2 weights sub).map (fun w => p * w.danger)))
    (some 1)

/-- A scored domain variant (`types.ts`); the DNS field is external. -/
structure DomainVariant where
  domain : Str
  dangerScore : ℚ
  editCount : Nat
  substitutions : List Substitution
  bestFont : Option String
  bestFontSsim : Option ℚ
  punycode : Str
deriving DecidableEq

/-- `scoreVariants` from score.ts: join each raw variant with the TLD,
score it, attach font data (explicit font when requested, else the best
font search) and the ACE form. -/
def scoreVariants (env : JsEnv) (fonts : List (String × ConfusableWeights))
    (rawVariants : List RawVariant) (tld : Str) (options : ScoreOptions) :
    List DomainVariant :=
  rawVariants.map (fun raw =>
    let domain := raw.label ++ [0x2E] ++ tld
    let bf : Option String × Option ℚ :=
      match options.font with
      | some fname =>
        match objGet fonts fname with
        | some fw =>
          match fontProduct2 fw raw.substitutions with
          | some product => (some fname, some product)
          | none => (none, none)
        | none => (none, none)
      | none =>
        match findBestFont env fonts raw.substitutions with
        | some r => (some r.1, some r.2)
        | none => (none, none)
    { domain := domain,
      dangerScore := computeDangerScore raw.substitutions options,
      editCount := raw.substitutions.length,
      substitutions := raw.substitutions,
      bestFont := bf.1,
      bestFontSsim := bf.2,
      punycode := toPunycode domain })

/-! ## tld.ts: TLD variants and scan targets -/

/-- `generateTldVariants` from tld.ts: 1-edit confusable variants of a TLD
(top 5 substitutes per position, deduplicated, no cap). -/
def generateTldVariants (env : JsEnv) (cmap : ConfusableMap)
    (ws : ConfusableWeights) (tld : Str) (buckets : Option PrototypeBuckets) :
    List Str :=
  let protoBuckets := buckets.getD
    (buildPrototypeBuckets env ⟨none, some 5, none⟩ cmap ws)
  let chars := strLower env tld
  (chars.enum.foldl (fun (acc : List Str × List Str) e =>
    match jsGet protoBuckets [e.2] with
    | none => acc
    | some subs => (subs.take 5).foldl (fun acc sub =>
        let variant := ((chars.map (fun c => [c])).set e.1 sub.char).flatten
        if variant ∈ acc.1 then acc
        else (acc.1 ++ [variant], acc.2 ++ [variant])) acc) ([], [])).2

/-- Options of `getTargetTlds`. -/
structure TargetTldOptions where
  baseTlds : Option (List Str) := none
  tldVariants : Option Bool := none
  scripts : Option (List String) := none

/-- `getTargetTlds` from tld.ts: the base TLD set, plus script-relevant IDN
TLDs, plus (on request) confusable variants of the snapshot of that set. -/
def getTargetTlds (env : JsEnv) (cmap : ConfusableMap) (ws : ConfusableWeights)
    (options : TargetTldOptions) : List Str :=
  let tlds := listToSet (options.baseTlds.getD DEFAULT_TLDS)
  let tlds := match options.scripts with
    | none => tlds
    | some scripts => scripts.foldl (fun tlds script =>
        match objGet IDN_TLDS script with
        | some idn => idn.foldl setAdd tlds
        | none => tlds) tlds
  if options.tldVariants.getD false then
    tlds.foldl (fun acc tld =>
      (generateTldVariants env cmap ws tld none).foldl setAdd acc) tlds
  else tlds

/-! ## scan.ts: the forward pipeline

DNS resolution (`options.resolve`) is external, network-bound I/O; the
embedding models a scan without resolution, whose pure pipeline is
generate, score across target TLDs, threshold-filter, sort, cap. -/

/-- The scan options relevant to the pure pipeline. -/
structure ScanOptions where
  top : Option Nat := none
  threshold : Option ℚ := none
  tlds : Option (List Str) := none
  tldVariants : Option Bool := none
  font : Option String := none
  maxEdits : Option Nat := none
  maxPerChar : Option Nat := none
  maxVariants : Option Nat := none
  includeNonPvalid : Option Bool := none
  useMaxDanger : Option Bool := none

/-- The scan result record (without DNS data). -/
structure ScanResult where
  original : Str
  label : Str
  tld : Str
  totalGenerated : Nat
  variants : List DomainVariant

/-- `scan` from scan.ts (the pure pipeline, no DNS resolution). -/
def scan (env : JsEnv) (fonts : List (String × ConfusableWeights))
    (cmap : ConfusableMap) (ws : ConfusableWeights) (domain : Str)
    (options : ScanOptions) : ScanResult :=
  let lt := splitDomain env domain
  let top := options.top.getD 20
  let threshold := options.threshold.getD 0
  let buckets := buildPrototypeBuckets env
    ⟨options.includeNonPvalid, options.maxPerChar, options.useMaxDanger⟩ cmap ws
  let rawVariants := generateVariants env lt.label
    ⟨options.maxEdits, options.maxPerChar, options.maxVariants,
      options.includeNonPvalid, options.useMaxDanger⟩ (some buckets) cmap ws
  let scripts := rawVariants.foldl (fun acc v =>
    v.substitutions.foldl (fun acc s => setAdd acc s.script) acc) []
  let tlds := getTargetTlds env cmap ws
    ⟨some (options.tlds.getD [lt.tld]), options.tldVariants, some scripts⟩
  let allVariants := tlds.flatMap (fun targetTld =>
    scoreVariants env fonts rawVariants targetTld ⟨options.useMaxDanger, options.font⟩)
  let allVariants := allVariants.filter (fun v => decide (threshold ≤ v.dangerScore))
  let allVariants := allVariants.mergeSort (fun a b => decide (b.dangerScore ≤ a.dangerScore))
  ⟨domain, lt.label, lt.tld, rawVariants.length, allVariants.take top⟩

/-! ## reverse-scan.ts: the reverse resolver -/

/-- The test `/^[a-z0-9]$/` on a prototype string. -/
def asciiAlnum (s : Str) : Bool :=
  match s with
  | [c] => decide ((0x61 ≤ c ∧ c ≤ 0x7A) ∨ (0x30 ≤ c ∧ c ≤ 0x39))
  | _ => false

/-- One impersonation candidate of a reverse scan (`types.ts`). -/
structure ImpersonationCandidate where
  domain : Str
  similarity : ℚ
  substitutions : List Substitution
deriving DecidableEq

/-- The reverse scan result (`types.ts`). -/
structure ReverseScanResult where
  domain : Str
  punycode : Str
  impersonates : List ImpersonationCandidate
deriving DecidableEq

/-- The four-way weight lookup of `reverseScan` for a confusable character
and its prototype. -/
def reverseWeight (env : JsEnv) (weights : ConfusableWeights)
    (ch : Nat) (ascii : Str) : Option ConfusableWeight :=
  weightGet weights [ch] ascii <|> weightGet weights ascii [ch]
    <|> weightGet weights [ch] (strUpper env ascii)
    <|> weightGet weights (strUpper env ascii) [ch]

/-- The substitution record `reverseScan` builds at position `i` for a
confusable character `ch` with prototype `ascii`. -/
def reverseSub (env : JsEnv) (weights : ConfusableWeights) (i : Nat)
    (ch : Nat) (ascii : Str) : Substitution :=
  let w := reverseWeight env weights ch ascii
  { position := i, original := ascii, replacement := [ch],
    codepoint := toCodepoint [ch], script := env.getScript [ch],
    danger := (w.map (·.danger)).getD (1/2),
    stableDanger := (w.map (·.stableDanger)).getD (1/2),
    idnaPvalid := (w.map (·.idnaPvalid)).getD false }

/-- `reverseScan` from reverse-scan.ts. `none` is the `RangeError` that the
punycode decoder can raise (it propagates out of `reverseScan`). -/
def reverseScan (env : JsEnv) (cmap : ConfusableMap) (weights : ConfusableWeights)
    (domain : Str) : Option ReverseScanResult :=
  let lt := splitDomain env domain
  let punycode := toPunycode domain
  let decoded? := if lt.label.take 4 = str "xn--" then decodePunycodeLabel lt.label
    else some lt.label
  match decoded? with
  | none => none
  | some chars =>
    let acc := chars.enum.foldl (fun (acc : List Substitution × List Str) e =>
      match jsGet cmap [e.2] with
      | some ascii =>
        if asciiAlnum ascii ∧ [e.2] ≠ ascii then
          (acc.1 ++ [reverseSub env weights e.1 e.2 ascii], acc.2 ++ [ascii])
        else (acc.1, acc.2 ++ [[e.2]])
      | none => (acc.1, acc.2 ++ [[e.2]])) ([], [])
    let canonicalDomain := acc.2.flatten ++ [0x2E] ++ lt.tld
    let similarity : ℚ :=
      if 0 < acc.1.length then
        (acc.1.foldl (fun sum s => sum + s.stableDanger) 0) / acc.1.length
      else 0
    some ⟨domain, punycode,
      if 0 < acc.1.length then [⟨canonicalDomain, similarity, acc.1⟩] else []⟩

/-- A concrete environment used to instantiate theorems: ASCII case
conversion and a constant script detector. -/
def env0 : JsEnv :=
  ⟨fun c => [if 0x41 ≤ c ∧ c ≤ 0x5A then c + 32 else c],
   fun c => [if 0x61 ≤ c ∧ c ≤ 0x7A then c - 32 else c],
   fun _ => "Common"⟩

/-- Whether a variant is a 1-edit variant at position `i`. -/
def isOneEditAt (i : Nat) (v : RawVariant) : Bool :=
  match v.substitutions with
  | [s] => s.position == i
  | _ => false

/-- The positions at which two strings differ (within the length of the
first). -/
def diffPositions (a b : Str) : List Nat :=
  (List.range a.length).filter (fun i => decide (a.getD i 0 ≠ b.getD i 0))

/-- A well-formed 1-edit variant of `chars`: one substitution, recording
exactly the one position at which the variant differs. -/
def Good1 (chars : Str) (v : RawVariant) : Prop :=
  ∃ s, v.substitutions = [s] ∧ chars.length = v.label.length
    ∧ diffPositions chars v.label = [s.position]

/-- A well-formed 2-edit variant of `chars`: two substitutions with strictly
increasing positions, recording exactly the two positions at which the
variant differs. -/
def Good2 (chars : Str) (v : RawVariant) : Prop :=
  ∃ s t, v.substitutions = [s, t] ∧ s.position < t.position
    ∧ chars.length = v.label.length
    ∧ diffPositions chars v.label = [s.position, t.position]

/-- A concrete bucket set for witnesses: the letter a spoofable by b. -/
def bk0 : PrototypeBuckets :=
  [([97], [⟨[98], toCodepoint [98], "Common", 1, 1, true⟩])]

/-- Spec view of the reverse scanner's per-character test: the prototype of
a confusable character, when it is a single ASCII lowercase letter or digit
different from the character. -/
def confusableAt (cmap : ConfusableMap) (ch : Nat) : Option Str :=
  match jsGet cmap [ch] with
  | some ascii => if asciiAlnum ascii ∧ [ch] ≠ ascii then some ascii else none
  | none => none

/-- Spec view of the substitutions detected on a decoded label. -/
def specSubs (env : JsEnv) (cmap : ConfusableMap) (weights : ConfusableWeights)
    (decoded : Str) : List Substitution :=
  decoded.enum.filterMap (fun e =>
    (confusableAt cmap e.2).map (fun ascii => reverseSub env weights e.1 e.2 ascii))

/-- Spec view of the canonical (all-ASCII) reconstruction of a label. -/
def canonicalOf (cmap : ConfusableMap) (decoded : Str) : Str :=
  decoded.flatMap (fun ch =>
    match confusableAt cmap ch with
    | some a => a
    | none => [ch])

/-- The decoded label the reverse scanner works on. -/
def decodedLabelOf (env : JsEnv) (d : Str) : Option Str :=
  if (splitDomain env d).label.take 4 = str "xn--" then
    decodePunycodeLabel (splitDomain env d).label
  else some (splitDomain env d).label

/-- Concrete prototype map for witnesses: Cyrillic а maps to Latin a. -/
def cmap1 : ConfusableMap := [([0x430], [97])]

/-- The witness domain: Cyrillic а followed by `.com`. -/
def dW : Str := [0x430, 0x2E, 99, 111, 109]

/-- The reverse scan result on the witness domain. -/
def rw0 : ReverseScanResult := (reverseScan env0 cmap1 [] dW).getD ⟨[], [], []⟩

/-- A finalized bucket anchored at `x` contains an entry whose substitute
character is `s`. -/
def bucketHas (bk : PrototypeBuckets) (x s : Str) : Prop :=
  ∃ e ∈ (jsGet bk x).getD [], e.char = s

/-- The raw bucket state has an edge from `x` to `s`. -/
def RawHas (raw : RawBuckets) (x s : Str) : Prop :=
  ∃ m, jsGet raw x = some m ∧ ∃ e ∈ m, e.1 = s

/-- Every stored entry's `char` equals its `Map` key. -/
def KeysChar (raw : RawBuckets) : Prop :=
  ∀ pm ∈ raw, ∀ e ∈ pm.2, e.2.char = e.1

/-- The raw state is symmetric. -/
def RawSymm (raw : RawBuckets) : Prop :=
  ∀ x s, RawHas raw x s → RawHas raw s x

/-- Counterexample data for C7: b and c both confusable with a, with the
weight table giving the c edge the higher stable danger. -/
def cmapC7 : ConfusableMap := [([98], [97]), ([99], [97])]

/-- The weight table for the C7 counterexample (integer-valued scores). -/
def wsC7 : ConfusableWeights :=
  [([98], [([97], ⟨1, 1, true⟩)]),
   ([99], [([97], ⟨2, 2, true⟩)])]

/-- The buckets of the C7 counterexample, truncated to one entry each. -/
def bkC7 : PrototypeBuckets :=
  buildPrototypeBuckets env0 ⟨some true, some 1, none⟩ cmapC7 wsC7

/-- Witness data for C7: a single confusable pair and no truncation. -/
def cmapW : ConfusableMap := [([98], [97])]

/-- A sample substitution used to instantiate hypothesis-bearing theorems. -/
def exSub : Substitution :=
  { position := 0, original := str "a", replacement := [0x430],
    codepoint := str "U+0430", script := "Cyrillic",
    danger := 1, stableDanger := 9/10, idnaPvalid := true }

/-! ## Helper lemmas -/

theorem foldl_mul_eq_prod {α : Type} (f : α → ℚ) (l : List α) (a : ℚ) :
    l.foldl (fun acc x => acc * f x) a = a * (l.map f).prod := by
  induction l generalizing a with
  | nil => simp
  | cons x xs ih => simp [List.foldl_cons, ih, mul_assoc]

theorem jsGet_nil {β : Type} (k : Str) : jsGet ([] : List (Str × β)) k = none := rfl

theorem jsGet_cons {β : Type} (a : Str) (b : β) (l : List (Str × β)) (k : Str) :
    jsGet ((a, b) :: l) k = if a = k then some b else jsGet l k := by
  by_cases h : a = k <;> simp [jsGet, List.find?_cons, h]

theorem jsGet_append {β : Type} (l1 l2 : List (Str × β)) (k : Str) :
    jsGet (l1 ++ l2) k = (jsGet l1 k <|> jsGet l2 k) := by
  induction l1 with
  | nil => simp [jsGet_nil]
  | cons e l1 ih =>
    rw [List.cons_append]
    rcases e with ⟨a, b⟩
    by_cases h : a = k <;> simp [jsGet_cons, h, ih]

theorem jsGet_map_self {β : Type} (m : List (Str × β)) (k : Str) (v : β) (w : β)
    (hw : jsGet m k = some w) :
    jsGet (m.map (fun e => if e.1 = k then (k, v) else e)) k = some v := by
  induction m with
  | nil => simp [jsGet_nil] at hw
  | cons e m ih =>
    rcases e with ⟨a, b⟩
    by_cases h : a = k
    · simp [jsGet_cons, h]
    · rw [jsGet_cons] at hw
      simp only [h, if_false] at hw
      simp [jsGet_cons, h, ih hw]

theorem jsGet_map_other {β : Type} (m : List (Str × β)) (k k2 : Str) (v : β)
    (hne : k2 ≠ k) :
    jsGet (m.map (fun e => if e.1 = k then (k, v) else e)) k2 = jsGet m k2 := by
  induction m with
  | nil => simp [jsGet_nil]
  | cons e m ih =>
    rcases e with ⟨a, b⟩
    by_cases h : a = k
    · subst h
      simp [jsGet_cons, Ne.symm hne, ih, hne]
    · by_cases h2 : a = k2 <;> simp [jsGet_cons, h, h2, ih, hne]

theorem jsGet_mapSet_self (m : RawBucket) (k : Str) (v : ConfusableSubstitute) :
    jsGet (mapSet m k v) k = some v := by
  unfold mapSet
  split
  · rename_i h
    rcases Option.isSome_iff_exists.mp h with ⟨w, hw⟩
    exact jsGet_map_self m k v w hw
  · rename_i h
    have hnone : jsGet m k = none := by
      cases hh : jsGet m k
      · rfl
      · rw [hh] at h; simp at h
    rw [jsGet_append, hnone]
    simp [jsGet_cons]

theorem jsGet_mapSet_other (m : RawBucket) (k k2 : Str) (v : ConfusableSubstitute)
    (hne : k2 ≠ k) : jsGet (mapSet m k v) k2 = jsGet m k2 := by
  unfold mapSet
  split
  · exact jsGet_map_other m k k2 v hne
  · rw [jsGet_append]
    cases hh : jsGet m k2
    · simp [hh, jsGet_cons, Ne.symm hne, jsGet_nil]
    · simp [hh]

theorem jsGet_ensureBucket_self (raw : RawBuckets) (k : Str) :
    jsGet (ensureBucket raw k) k = some ((jsGet raw k).getD []) := by
  unfold ensureBucket
  split
  · rename_i h
    rcases Option.isSome_iff_exists.mp h with ⟨w, hw⟩
    simp [hw]
  · rename_i h
    have hnone : jsGet raw k = none := by
      cases hh : jsGet raw k
      · rfl
      · rw [hh] at h; simp at h
    rw [jsGet_append, hnone]
    simp [jsGet_cons]

theorem jsGet_ensureBucket_other (raw : RawBuckets) (k k2 : Str) (hne : k2 ≠ k) :
    jsGet (ensureBucket raw k) k2 = jsGet raw k2 := by
  unfold ensureBucket
  split
  · rfl
  · rw [jsGet_append]
    cases hh : jsGet raw k2
    · simp [hh, jsGet_cons, Ne.symm hne, jsGet_nil]
    · simp [hh]

theorem jsGet_rawUpdate_self (raw : RawBuckets) (k : Str) (f : RawBucket → RawBucket) :
    jsGet (rawUpdate raw k f) k = (jsGet raw k).map f := by
  induction raw with
  | nil => simp [rawUpdate, jsGet_nil]
  | cons e raw ih =>
    rcases e with ⟨a, b⟩
    unfold rawUpdate at ih ⊢
    by_cases h : a = k <;> simp [jsGet_cons, h, ih]

theorem jsGet_rawUpdate_other (raw : RawBuckets) (k k2 : Str)
    (f : RawBucket → RawBucket) (hne : k2 ≠ k) :
    jsGet (rawUpdate raw k f) k2 = jsGet raw k2 := by
  induction raw with
  | nil => simp [rawUpdate, jsGet_nil]
  | cons e raw ih =>
    rcases e with ⟨a, b⟩
    unfold rawUpdate at ih ⊢
    by_cases h : a = k
    · subst h
      simp [jsGet_cons, Ne.symm hne, ih]
    · by_cases h2 : a = k2 <;> simp [jsGet_cons, h, h2, ih, hne]

theorem bucketGet_ensureBucket (raw : RawBuckets) (frm sub : Str) :
    bucketGet (ensureBucket raw frm) frm sub = bucketGet raw frm sub := by
  unfold bucketGet
  rw [jsGet_ensureBucket_self]
  cases hh : jsGet raw frm <;> simp [hh, jsGet_nil]

theorem bucketGet_addEdge_self (env : JsEnv) (inp : Bool) (raw : RawBuckets)
    (frm sub : Str) (d st : ℚ) (pv : Bool) (hne : frm ≠ sub)
    (hkeep : inp = true ∨ pv = true) :
    bucketGet (addEdge env inp raw frm sub d st pv) frm sub =
      some (match bucketGet raw frm sub with
        | some ex => if ex.stableDanger < st
            then { ex with
                     danger := d, stableDanger := st,
                     idnaPvalid := ex.idnaPvalid || pv }
            else ex
        | none => ⟨sub, toCodepoint sub, env.getScript sub, d, st, pv⟩) := by
  unfold addEdge
  rw [if_neg hne]
  have hfilter : ¬(¬inp = true ∧ ¬pv = true) := by
    rcases hkeep with h | h <;> simp [h]
  rw [if_neg hfilter]
  dsimp only
  have hens := bucketGet_ensureBucket raw frm sub
  cases hex : bucketGet raw frm sub with
  | some ex =>
    rw [hens, hex]
    dsimp only
    by_cases hwin : ex.stableDanger < st
    · rw [if_pos hwin, if_pos hwin]
      unfold bucketGet
      rw [jsGet_rawUpdate_self, jsGet_ensureBucket_self]
      simp [jsGet_mapSet_self]
    · rw [if_neg hwin, if_neg hwin]
      exact hens.trans hex
  | none =>
    rw [hens, hex]
    dsimp only
    unfold bucketGet
    rw [jsGet_rawUpdate_self, jsGet_ensureBucket_self]
    simp [jsGet_mapSet_self]

/-! ## C5 -/

/-- C5 (amended): `addEdge` always skips self-edges, and skips non-PVALID
edges unless `includeNonPvalid`; when an edge to an already-present target
is inserted, the kept entry carries the higher of the two `stableDanger`
values, but the `idnaPvalid` flags are OR-ed only when the incoming edge
strictly wins on `stableDanger` — when it loses or ties, the existing entry
is kept entirely unchanged, its flag included. -/
theorem addEdge_insertion_spec (env : JsEnv) (inp : Bool) (raw : RawBuckets)
    (frm sub : Str) (d st : ℚ) (pv : Bool) :
    (frm = sub → addEdge env inp raw frm sub d st pv = raw)
    ∧ (inp = false → pv = false → addEdge env inp raw frm sub d st pv = raw)
    ∧ (∀ ex, frm ≠ sub → (inp = true ∨ pv = true) →
        bucketGet raw frm sub = some ex →
        bucketGet (addEdge env inp raw frm sub d st pv) frm sub =
          some (if ex.stableDanger < st
            then { ex with
                     danger := d, stableDanger := st,
                     idnaPvalid := ex.idnaPvalid || pv }
            else ex))
    ∧ (∀ ex e2, frm ≠ sub → (inp = true ∨ pv = true) →
        bucketGet raw frm sub = some ex →
        bucketGet (addEdge env inp raw frm sub d st pv) frm sub = some e2 →
        e2.stableDanger = max ex.stableDanger st) := by
  refine ⟨fun h => by simp [addEdge, h], fun h1 h2 => by simp [addEdge, h1, h2], ?_, ?_⟩
  · intro ex hne hkeep hex
    rw [bucketGet_addEdge_self env inp raw frm sub d st pv hne hkeep, hex]
  · intro ex e2 hne hkeep hex he2
    rw [bucketGet_addEdge_self env inp raw frm sub d st pv hne hkeep, hex] at he2
    simp only [Option.some_inj] at he2
    subst he2
    by_cases hwin : ex.stableDanger < st
    · simp [hwin, max_eq_right (le_of_lt hwin)]
    · simp [hwin, max_eq_left (not_lt.mp hwin)]

/-- C5 counterexample: insert an edge a to b with `stableDanger` 0.9 and
`idnaPvalid` false, then the same edge with `stableDanger` 0.5 and
`idnaPvalid` true (under `includeNonPvalid`). The claim says the kept entry
has the OR of the flags (true); the code keeps the losing entry untouched,
so the flag stays false. -/
theorem c5ex_bucket :
    bucketGet (addEdge env0 true [] (str "a") (str "b") (9/10) (9/10) false)
      (str "a") (str "b") =
      some ⟨str "b", toCodepoint (str "b"), "Common", 9/10, 9/10, false⟩ := by
  rw [bucketGet_addEdge_self env0 true [] (str "a") (str "b") (9/10) (9/10) false
    (by decide) (Or.inl rfl)]
  rfl

theorem addEdge_or_flag_counterexample :
    ((bucketGet (addEdge env0 true
        (addEdge env0 true [] (str "a") (str "b") (9/10) (9/10) false)
        (str "a") (str "b") (1/2) (1/2) true) (str "a") (str "b")).map
      (·.idnaPvalid)) = some false ∧ (false || true) = true := by
  refine ⟨?_, rfl⟩
  rw [bucketGet_addEdge_self env0 true
    (addEdge env0 true [] (str "a") (str "b") (9/10) (9/10) false)
    (str "a") (str "b") (1/2) (1/2) true (by decide) (Or.inr rfl), c5ex_bucket]
  dsimp only
  rw [if_neg (by norm_num : ¬ ((9:ℚ)/10 < 1/2))]
  rfl

/-- Witness for C5 at the same concrete edges: the losing insertion keeps
the existing 0.9 entry (the higher of the two `stableDanger` values). -/
theorem addEdge_insertion_spec_witness :
    bucketGet (addEdge env0 true
      (addEdge env0 true [] (str "a") (str "b") (9/10) (9/10) false)
      (str "a") (str "b") (1/2) (1/2) true) (str "a") (str "b") =
      some ⟨str "b", toCodepoint (str "b"), "Common", 9/10, 9/10, false⟩ := by
  have h := (addEdge_insertion_spec env0 true
      (addEdge env0 true [] (str "a") (str "b") (9/10) (9/10) false)
      (str "a") (str "b") (1/2) (1/2) true).2.2.1
    ⟨str "b", toCodepoint (str "b"), "Common", 9/10, 9/10, false⟩
    (by decide) (Or.inl rfl) c5ex_bucket
  rw [h]
  dsimp only
  rw [if_neg (by norm_num : ¬ ((9:ℚ)/10 < 1/2))]

/-! ## Bucket finalization lemmas -/

theorem jsGet_mapSnd {β γ : Type} (l : List (Str × β)) (g : β → γ) (k : Str) :
    jsGet (l.map (fun e => (e.1, g e.2))) k = (jsGet l k).map g := by
  induction l with
  | nil => simp [jsGet_nil]
  | cons e l ih =>
    rcases e with ⟨a, b⟩
    by_cases h : a = k <;> simp [jsGet_cons, h, ih]

theorem jsGet_finalizeBuckets (u : Bool) (k : Nat) (raw : RawBuckets) (proto : Str) :
    jsGet (finalizeBuckets u k raw) proto =
      (jsGet raw proto).map (fun m => ((m.map (·.2)).mergeSort
        (fun a b => decide (entryScore u b ≤ entryScore u a))).take k) := by
  unfold finalizeBuckets
  exact jsGet_mapSnd raw (fun m => ((m.map (·.2)).mergeSort
    (fun a b => decide (entryScore u b ≤ entryScore u a))).take k) proto

theorem entryLe_trans (u : Bool) : ∀ a b c : ConfusableSubstitute,
    decide (entryScore u b ≤ entryScore u a) →
    decide (entryScore u c ≤ entryScore u b) →
    decide (entryScore u c ≤ entryScore u a) := by
  intro a b c h1 h2
  simp only [decide_eq_true_eq] at h1 h2 ⊢
  exact le_trans h2 h1

theorem entryLe_total (u : Bool) : ∀ a b : ConfusableSubstitute,
    (decide (entryScore u b ≤ entryScore u a) || decide (entryScore u a ≤ entryScore u b)) := by
  intro a b
  rcases le_total (entryScore u b) (entryScore u a) with h | h <;> simp [h]

/-- Every finalized bucket is capped at `maxPerChar` and sorted descending
by the configured score key. -/
theorem bucket_capped_sorted (u : Bool) (k : Nat) (raw : RawBuckets)
    (proto : Str) (bucket : List ConfusableSubstitute)
    (hb : jsGet (finalizeBuckets u k raw) proto = some bucket) :
    bucket.length ≤ k
    ∧ bucket.Pairwise (fun a b => entryScore u b ≤ entryScore u a) := by
  rw [jsGet_finalizeBuckets] at hb
  cases hm : jsGet raw proto with
  | none => rw [hm] at hb; exact absurd hb (by simp)
  | some m =>
    rw [hm, Option.map_some'] at hb
    cases hb
    constructor
    · simpa using Nat.min_le_left k _
    · have hs := @List.sorted_mergeSort _ (fun a b : ConfusableSubstitute =>
        decide (entryScore u b ≤ entryScore u a))
        (entryLe_trans u) (entryLe_total u) (m.map (·.2))
      have hs2 := hs.sublist (List.take_sublist k _)
      exact hs2.imp (fun h => by simpa using h)

/-! ## Generator counting lemmas -/

theorem tryAdd_countP_le (p : RawVariant → Bool) (maxV : Nat) (st : GenState)
    (m : List Str) (subs : List Substitution) :
    List.countP p (tryAdd maxV st m subs).1.variants
      ≤ List.countP p st.variants + 1 := by
  unfold tryAdd
  split
  · dsimp only; omega
  · split
    · dsimp only; omega
    · dsimp only
      simp only [List.countP_append, List.countP_cons, List.countP_nil]
      split <;> omega

theorem tryAdd_countP_of_not (p : RawVariant → Bool) (maxV : Nat) (st : GenState)
    (m : List Str) (subs : List Substitution)
    (hp : p ⟨m.flatten, subs⟩ = false) :
    List.countP p (tryAdd maxV st m subs).1.variants = List.countP p st.variants := by
  unfold tryAdd
  split
  · rfl
  · split
    · rfl
    · simp [List.countP_append, List.countP_cons, hp]

theorem oneEditInner_countP_other (i2 : Nat) (maxV : Nat) (chars : Str) (i : Nat)
    (proto : Nat) (hne : i2 ≠ i) :
    ∀ subsList st,
      List.countP (isOneEditAt i2) (oneEditInner maxV chars i proto subsList st).1.variants
        = List.countP (isOneEditAt i2) st.variants := by
  intro subsList
  induction subsList with
  | nil => intro st; rfl
  | cons sub rest ih =>
    intro st
    rw [oneEditInner]
    have hp : isOneEditAt i2
        ⟨((chars.map (fun c => [c])).set i sub.char).flatten,
         [makeSubstitution i [proto] sub]⟩ = false := by
      simp [isOneEditAt, makeSubstitution, Ne.symm hne]
    split
    · rw [ih, tryAdd_countP_of_not _ _ _ _ _ hp]
    · rw [tryAdd_countP_of_not _ _ _ _ _ hp]

theorem oneEditInner_countP_self (maxV : Nat) (chars : Str) (i : Nat) (proto : Nat) :
    ∀ subsList st,
      List.countP (isOneEditAt i) (oneEditInner maxV chars i proto subsList st).1.variants
        ≤ List.countP (isOneEditAt i) st.variants + subsList.length := by
  intro subsList
  induction subsList with
  | nil => intro st; simp [oneEditInner]
  | cons sub rest ih =>
    intro st
    rw [oneEditInner]
    split
    · have h1 := ih (tryAdd maxV st ((chars.map (fun c => [c])).set i sub.char)
        [makeSubstitution i [proto] sub]).1
      have h2 := tryAdd_countP_le (isOneEditAt i) maxV st
        ((chars.map (fun c => [c])).set i sub.char) [makeSubstitution i [proto] sub]
      simp only [List.length_cons]
      omega
    · have h2 := tryAdd_countP_le (isOneEditAt i) maxV st
        ((chars.map (fun c => [c])).set i sub.char) [makeSubstitution i [proto] sub]
      simp only [List.length_cons]
      omega

theorem twoEditInnerJ_countP (i2 : Nat) (maxV : Nat) (chars : Str) (i j : Nat)
    (ci cj : Nat) (subI : ConfusableSubstitute) :
    ∀ subsList st,
      List.countP (isOneEditAt i2)
        (twoEditInnerJ maxV chars i j ci cj subI subsList st).1.variants
        = List.countP (isOneEditAt i2) st.variants := by
  intro subsList
  induction subsList with
  | nil => intro st; rfl
  | cons subJ rest ih =>
    intro st
    rw [twoEditInnerJ]
    have hp : isOneEditAt i2
        ⟨(((chars.map (fun c => [c])).set i subI.char).set j subJ.char).flatten,
         [makeSubstitution i [ci] subI, makeSubstitution j [cj] subJ]⟩ = false := by
      simp [isOneEditAt]
    split
    · rw [ih, tryAdd_countP_of_not _ _ _ _ _ hp]
    · rw [tryAdd_countP_of_not _ _ _ _ _ hp]

theorem twoEditInnerI_countP (i2 : Nat) (maxV : Nat) (chars : Str) (i j : Nat)
    (ci cj : Nat) (topJ : List ConfusableSubstitute) :
    ∀ subsList st,
      List.countP (isOneEditAt i2)
        (twoEditInnerI maxV chars i j ci cj topJ subsList st).1.variants
        = List.countP (isOneEditAt i2) st.variants := by
  intro subsList
  induction subsList with
  | nil => intro st; rfl
  | cons subI rest ih =>
    intro st
    rw [twoEditInnerI]
    split
    · rw [ih, twoEditInnerJ_countP]
    · rw [twoEditInnerJ_countP]

theorem twoEditJ_countP (i2 : Nat) (maxPC maxV : Nat) (buckets : PrototypeBuckets)
    (chars : Str) (i : Nat) (ci : Nat) (subsI : List ConfusableSubstitute) :
    ∀ L st,
      List.countP (isOneEditAt i2)
        (twoEditJ maxPC maxV buckets chars i ci subsI L st).1.variants
        = List.countP (isOneEditAt i2) st.variants := by
  intro L
  induction L with
  | nil => intro st; rfl
  | cons e rest ih =>
    intro st
    rcases e with ⟨j, cj⟩
    rw [twoEditJ]
    cases jsGet buckets [cj] with
    | none => exact ih st
    | some subsJ =>
      dsimp only
      split
      · rw [ih, twoEditInnerI_countP]
      · rw [twoEditInnerI_countP]

theorem twoEditI_countP (i2 : Nat) (maxPC maxV : Nat) (buckets : PrototypeBuckets)
    (chars : Str) :
    ∀ L st,
      List.countP (isOneEditAt i2)
        (twoEditI maxPC maxV buckets chars L st).1.variants
        = List.countP (isOneEditAt i2) st.variants := by
  intro L
  induction L with
  | nil => intro st; rfl
  | cons e rest ih =>
    intro st
    rcases e with ⟨i, ci⟩
    rw [twoEditI]
    cases jsGet buckets [ci] with
    | none => exact ih st
    | some subsI =>
      dsimp only
      split
      · rw [ih, twoEditJ_countP]
      · rw [twoEditJ_countP]

theorem oneEditPass_countP_notMem (i : Nat) (maxPC maxV : Nat)
    (buckets : PrototypeBuckets) (chars : Str) :
    ∀ L st, (∀ e ∈ L, e.1 ≠ i) →
      List.countP (isOneEditAt i)
        (oneEditPass maxPC maxV buckets chars L st).1.variants
        = List.countP (isOneEditAt i) st.variants := by
  intro L
  induction L with
  | nil => intro st _; rfl
  | cons e rest ih =>
    intro st hL
    rcases e with ⟨j, proto⟩
    have hji : j ≠ i := hL (j, proto) (List.mem_cons_self _ _)
    have hrest : ∀ e ∈ rest, e.1 ≠ i := fun e he => hL e (List.mem_cons_of_mem _ he)
    rw [oneEditPass]
    cases jsGet buckets [proto] with
    | none => exact ih st hrest
    | some subs =>
      dsimp only
      split
      · rw [ih _ hrest, oneEditInner_countP_other i maxV chars j proto (Ne.symm hji)]
      · rw [oneEditInner_countP_other i maxV chars j proto (Ne.symm hji)]

theorem oneEditPass_countP (i : Nat) (k : Nat) (maxPC maxV : Nat)
    (buckets : PrototypeBuckets) (chars : Str)
    (hbk : ∀ c subs, jsGet buckets [c] = some subs → subs.length ≤ k) :
    ∀ L st, L.Pairwise (fun a b => a.1 ≠ b.1) →
      List.countP (isOneEditAt i)
        (oneEditPass maxPC maxV buckets chars L st).1.variants
        ≤ List.countP (isOneEditAt i) st.variants + k := by
  intro L
  induction L with
  | nil => intro st _; simp [oneEditPass]
  | cons e rest ih =>
    intro st hL
    rcases e with ⟨j, proto⟩
    have hrestPW : rest.Pairwise (fun a b => a.1 ≠ b.1) := (List.pairwise_cons.mp hL).2
    have hhead : ∀ b ∈ rest, j ≠ b.1 := (List.pairwise_cons.mp hL).1
    rw [oneEditPass]
    cases hsub : jsGet buckets [proto] with
    | none => exact ih st hrestPW
    | some subs =>
      dsimp only
      by_cases hji : j = i
      · subst hji
        have hlen : (subs.take maxPC).length ≤ k := by
          have := hbk proto subs hsub
          simp only [List.length_take]
          omega
        have hinner := oneEditInner_countP_self maxV chars j proto (subs.take maxPC) st
        have hrestNe : ∀ e ∈ rest, e.1 ≠ j := fun e he => Ne.symm (hhead e he)
        split
        · rw [oneEditPass_countP_notMem j maxPC maxV buckets chars rest _ hrestNe]
          omega
        · dsimp only
          omega
      · have hother := oneEditInner_countP_other i maxV chars j proto (Ne.symm hji)
          (subs.take maxPC) st
        split
        · have := ih (oneEditInner maxV chars j proto (subs.take maxPC) st).1 hrestPW
          omega
        · dsimp only
          omega

theorem enumFrom_pairwise_lt {α : Type} (l : List α) :
    ∀ n, (l.enumFrom n).Pairwise (fun a b => a.1 < b.1) := by
  induction l with
  | nil => intro n; simp
  | cons x xs ih =>
    intro n
    simp only [List.enumFrom]
    refine List.pairwise_cons.mpr ⟨?_, ih (n + 1)⟩
    intro b hb
    have := List.le_fst_of_mem_enumFrom hb
    omega

theorem enum_pairwise_ne {α : Type} (l : List α) :
    l.enum.Pairwise (fun a b => a.1 ≠ b.1) := by
  have := enumFrom_pairwise_lt l 0
  exact this.imp (fun h => by omega)

theorem countP_finalize (p : RawVariant → Bool) (v : List RawVariant) (u : Bool) :
    List.countP p (finalize v u) = List.countP p v := by
  unfold finalize
  exact (List.mergeSort_perm v _).countP_eq p

/-! ## C9 -/

/-- C9: with `maxPerChar = k`, every bucket produced by
`buildPrototypeBuckets` has at most `k` entries and is sorted descending by
the configured score key (`stableDanger` by default, `danger` under
`useMaxDanger`); transitively, each label position contributes at most `k`
1-edit variants to the output of `generateVariants` run over those
buckets. -/
theorem buckets_capped_sorted_and_bound (env : JsEnv) (bopts : BuildOptions)
    (k : Nat) (cmap : ConfusableMap) (ws : ConfusableWeights)
    (hk : bopts.maxPerChar = some k) :
    (∀ proto bucket,
        jsGet (buildPrototypeBuckets env bopts cmap ws) proto = some bucket →
        bucket.length ≤ k
        ∧ bucket.Pairwise (fun a b =>
            entryScore (bopts.useMaxDanger.getD false) b
              ≤ entryScore (bopts.useMaxDanger.getD false) a))
    ∧ (∀ (label : Str) (gopts : GenerateOptions) (i : Nat),
        List.countP (isOneEditAt i)
          (generateVariants env label gopts
            (some (buildPrototypeBuckets env bopts cmap ws)) cmap ws) ≤ k) := by
  have hcap : ∀ proto bucket,
      jsGet (buildPrototypeBuckets env bopts cmap ws) proto = some bucket →
      bucket.length ≤ k
      ∧ bucket.Pairwise (fun a b =>
          entryScore (bopts.useMaxDanger.getD false) b
            ≤ entryScore (bopts.useMaxDanger.getD false) a) := by
    intro proto bucket hb
    unfold buildPrototypeBuckets at hb
    rw [hk] at hb
    exact bucket_capped_sorted _ k _ proto bucket hb
  refine ⟨hcap, ?_⟩
  intro label gopts i
  have hbk : ∀ c subs,
      jsGet (buildPrototypeBuckets env bopts cmap ws) [c] = some subs →
      subs.length ≤ k := fun c subs h => (hcap [c] subs h).1
  unfold generateVariants
  dsimp only [Option.getD_some]
  have h1 := oneEditPass_countP i k (gopts.maxPerChar.getD 10)
    (gopts.maxVariants.getD 5000) (buildPrototypeBuckets env bopts cmap ws)
    (strLower env label) hbk (strLower env label).enum ⟨[], []⟩
    (enum_pairwise_ne (strLower env label))
  simp only [List.countP_nil, Nat.zero_add] at h1
  split
  · rw [countP_finalize]
    exact h1
  · split
    · rw [countP_finalize, twoEditI_countP]
      exact h1
    · rw [countP_finalize]
      exact h1

/-- Witness for C9 at a concrete configuration: two buckets of size one,
`maxPerChar` 2, scanning the label `ab` contributes at most 2 one-edit
variants at position 0. -/
theorem buckets_capped_sorted_and_bound_witness :
    List.countP (isOneEditAt 0)
      (generateVariants env0 (str "ab") {}
        (some (buildPrototypeBuckets env0 ⟨some true, some 2, none⟩
          [(str "b", str "a")] [])) [(str "b", str "a")] []) ≤ 2 :=
  (buckets_capped_sorted_and_bound env0 ⟨some true, some 2, none⟩ 2
    [(str "b", str "a")] [] rfl).2 (str "ab") {} 0

/-! ## C8 -/

theorem finalize_sorted (v : List RawVariant) (u : Bool) :
    (finalize v u).Pairwise (fun a b =>
      aggregateScore b.substitutions u ≤ aggregateScore a.substitutions u) := by
  unfold finalize
  have hs := @List.sorted_mergeSort _ (fun a b : RawVariant =>
      decide (aggregateScore b.substitutions u ≤ aggregateScore a.substitutions u))
    (fun a b c h1 h2 => by
      simp only [decide_eq_true_eq] at h1 h2 ⊢
      exact le_trans h2 h1)
    (fun a b => by
      rcases le_total (aggregateScore b.substitutions u) (aggregateScore a.substitutions u)
        with h | h <;> simp [h]) v
  exact hs.imp (fun h => by simpa using h)

/-- C8: the list returned by `generateVariants` is sorted non-increasing by
aggregate score (product of the configured score key over the substitutions
times the multi-edit penalty), and the variants returned by `scan` after
threshold filtering are sorted non-increasing by composite danger score. -/
theorem outputs_sorted (env : JsEnv) (label : Str) (gopts : GenerateOptions)
    (bk : Option PrototypeBuckets) (cmap : ConfusableMap) (ws : ConfusableWeights)
    (fonts : List (String × ConfusableWeights)) (domain : Str)
    (sopts : ScanOptions) :
    (generateVariants env label gopts bk cmap ws).Pairwise (fun a b =>
      aggregateScore b.substitutions (gopts.useMaxDanger.getD false)
        ≤ aggregateScore a.substitutions (gopts.useMaxDanger.getD false))
    ∧ (scan env fonts cmap ws domain sopts).variants.Pairwise (fun a b =>
      b.dangerScore ≤ a.dangerScore) := by
  constructor
  · unfold generateVariants
    dsimp only
    split
    · exact finalize_sorted _ _
    · split
      · exact finalize_sorted _ _
      · exact finalize_sorted _ _
  · unfold scan
    dsimp only
    have hs := @List.sorted_mergeSort _ (fun a b : DomainVariant =>
        decide (b.dangerScore ≤ a.dangerScore))
      (fun a b c h1 h2 => by
        simp only [decide_eq_true_eq] at h1 h2 ⊢
        exact le_trans h2 h1)
      (fun a b => by
        rcases le_total b.dangerScore a.dangerScore with h | h <;> simp [h])
    refine (List.Pairwise.sublist (List.take_sublist _ _) (hs _)).imp ?_
    intro a b h
    simpa using h

/-! ## Variant shape lemmas (toward C3) -/

theorem flatten_map_singleton (chars : Str) :
    (chars.map (fun c => [c])).flatten = chars := by
  induction chars with
  | nil => rfl
  | cons c cs ih => simp [ih]

theorem map_singleton_set (chars : Str) (i : Nat) (d : Nat) :
    (chars.map (fun c => [c])).set i [d] = (chars.set i d).map (fun c => [c]) := by
  rw [List.set_map]

theorem filter_range_singleton (i : Nat) (p : Nat → Bool) :
    ∀ n, i < n → (∀ x, x < n → (p x = true ↔ x = i)) →
      (List.range n).filter p = [i] := by
  intro n
  induction n with
  | zero => intro hin _; omega
  | succ n ih =>
    intro hin hp
    rw [List.range_succ, List.filter_append]
    by_cases hni : i = n
    · subst hni
      have h1 : (List.range i).filter p = [] := by
        rw [List.filter_eq_nil_iff]
        intro a ha
        have han := List.mem_range.mp ha
        intro hpa
        have := (hp a (by omega)).mp hpa
        omega
      have h2 : p i = true := (hp i (by omega)).mpr rfl
      simp [h1, h2]
    · have h1 := ih (by omega) (fun x hx => hp x (by omega))
      have h2 : p n = false := by
        by_cases hpn : p n = true
        · have := (hp n (by omega)).mp hpn
          omega
        · simpa using hpn
      simp [h1, h2]

theorem filter_range_pair (i j : Nat) (hij : i < j) (p : Nat → Bool) :
    ∀ n, j < n → (∀ x, x < n → (p x = true ↔ (x = i ∨ x = j))) →
      (List.range n).filter p = [i, j] := by
  intro n
  induction n with
  | zero => intro hjn _; omega
  | succ n ih =>
    intro hjn hp
    rw [List.range_succ, List.filter_append]
    by_cases hnj : j = n
    · subst hnj
      have h1 : (List.range j).filter p = [i] := by
        apply filter_range_singleton i p j hij
        intro x hx
        rw [hp x (by omega)]
        omega
      have h2 : p j = true := (hp j (by omega)).mpr (Or.inr rfl)
      simp [h1, h2]
    · have h1 := ih (by omega) (fun x hx => hp x (by omega))
      have h2 : p n = false := by
        by_cases hpn : p n = true
        · have := (hp n (by omega)).mp hpn
          omega
        · simpa using hpn
      simp [h1, h2]

theorem getD_set_self (l : Str) (i : Nat) (d : Nat) (hi : i < l.length) :
    (l.set i d).getD i 0 = d := by
  rw [List.getD_eq_getElem?_getD, List.getElem?_set_self (by omega)]
  rfl

theorem getD_set_ne (l : Str) (i x : Nat) (d : Nat) (hne : i ≠ x) :
    (l.set i d).getD x 0 = l.getD x 0 := by
  rw [List.getD_eq_getElem?_getD, List.getElem?_set_ne hne,
    ← List.getD_eq_getElem?_getD]

theorem diffPositions_set_one (chars : Str) (i : Nat) (d : Nat)
    (hi : i < chars.length) (hd : d ≠ chars.getD i 0) :
    diffPositions chars (chars.set i d) = [i] := by
  unfold diffPositions
  apply filter_range_singleton i _ chars.length hi
  intro x hx
  rw [decide_eq_true_eq]
  by_cases hxi : x = i
  · subst hxi
    rw [getD_set_self chars x d hx]
    exact iff_of_true (Ne.symm hd) rfl
  · rw [getD_set_ne chars i x d (Ne.symm hxi)]
    exact iff_of_false (fun hcon => hcon rfl) hxi

theorem diffPositions_set_two (chars : Str) (i j : Nat) (d1 d2 : Nat)
    (hij : i < j) (hj : j < chars.length)
    (hd1 : d1 ≠ chars.getD i 0) (hd2 : d2 ≠ chars.getD j 0) :
    diffPositions chars ((chars.set i d1).set j d2) = [i, j] := by
  unfold diffPositions
  apply filter_range_pair i j hij _ chars.length hj
  intro x hx
  rw [decide_eq_true_eq]
  by_cases hxj : x = j
  · subst hxj
    rw [getD_set_self _ x d2 (by simpa using hx)]
    exact iff_of_true (Ne.symm hd2) (Or.inr rfl)
  · rw [getD_set_ne _ j x d2 (Ne.symm hxj)]
    by_cases hxi : x = i
    · subst hxi
      rw [getD_set_self chars x d1 (by omega)]
      exact iff_of_true (Ne.symm hd1) (Or.inl rfl)
    · rw [getD_set_ne chars i x d1 (Ne.symm hxi)]
      exact iff_of_false (fun hcon => hcon rfl) (by simp [hxi, hxj])

theorem mem_enum_getD (chars : Str) (i : Nat) (c : Nat)
    (h : (i, c) ∈ chars.enum) : i < chars.length ∧ chars.getD i 0 = c := by
  have h1 := List.fst_lt_of_mem_enum h
  have h2 := List.snd_eq_of_mem_enum h
  refine ⟨h1, ?_⟩
  rw [List.getD_eq_getElem?_getD]
  simp only at h2
  rw [List.getElem?_eq_getElem h1]
  simp [h2]

/-- The candidate pushed by the 1-edit pass is a good 1-edit variant. -/
theorem cand1_good (chars : Str) (i : Nat) (proto : Nat)
    (sub : ConfusableSubstitute) (hmem : (i, proto) ∈ chars.enum)
    (hlen : sub.char.length = 1) (hne : sub.char ≠ [proto]) :
    Good1 chars ⟨((chars.map (fun c => [c])).set i sub.char).flatten,
      [makeSubstitution i [proto] sub]⟩ := by
  obtain ⟨hi, hc⟩ := mem_enum_getD chars i proto hmem
  obtain ⟨d, hd⟩ : ∃ d, sub.char = [d] := by
    cases hch : sub.char with
    | nil => rw [hch] at hlen; simp at hlen
    | cons x xs =>
      rw [hch] at hlen
      simp at hlen
      exact ⟨x, by simp [hlen]⟩
  refine ⟨makeSubstitution i [proto] sub, rfl, ?_, ?_⟩
  · rw [hd, map_singleton_set, flatten_map_singleton]
    simp
  · rw [hd, map_singleton_set, flatten_map_singleton]
    have hdp : d ≠ chars.getD i 0 := by
      rw [hc]
      intro hcon
      exact hne (by rw [hd, hcon])
    rw [diffPositions_set_one chars i d hi hdp]
    rfl

/-- The candidate pushed by the 2-edit pass is a good 2-edit variant. -/
theorem cand2_good (chars : Str) (i j : Nat) (ci cj : Nat)
    (subI subJ : ConfusableSubstitute)
    (hmi : (i, ci) ∈ chars.enum) (hmj : (j, cj) ∈ chars.enum) (hij : i < j)
    (hlenI : subI.char.length = 1) (hneI : subI.char ≠ [ci])
    (hlenJ : subJ.char.length = 1) (hneJ : subJ.char ≠ [cj]) :
    Good2 chars ⟨(((chars.map (fun c => [c])).set i subI.char).set j subJ.char).flatten,
      [makeSubstitution i [ci] subI, makeSubstitution j [cj] subJ]⟩ := by
  obtain ⟨hi, hci⟩ := mem_enum_getD chars i ci hmi
  obtain ⟨hj, hcj⟩ := mem_enum_getD chars j cj hmj
  obtain ⟨d1, hd1⟩ : ∃ d, subI.char = [d] := by
    cases hch : subI.char with
    | nil => rw [hch] at hlenI; simp at hlenI
    | cons x xs =>
      rw [hch] at hlenI
      simp at hlenI
      exact ⟨x, by simp [hlenI]⟩
  obtain ⟨d2, hd2⟩ : ∃ d, subJ.char = [d] := by
    cases hch : subJ.char with
    | nil => rw [hch] at hlenJ; simp at hlenJ
    | cons x xs =>
      rw [hch] at hlenJ
      simp at hlenJ
      exact ⟨x, by simp [hlenJ]⟩
  have hrw : (((chars.map (fun c => [c])).set i subI.char).set j subJ.char).flatten
      = (chars.set i d1).set j d2 := by
    rw [hd1, hd2, map_singleton_set, List.set_map, flatten_map_singleton]
  refine ⟨makeSubstitution i [ci] subI, makeSubstitution j [cj] subJ, rfl, hij, ?_, ?_⟩
  · rw [hrw]; simp
  · rw [hrw]
    have hdp1 : d1 ≠ chars.getD i 0 := by
      rw [hci]; intro hcon; exact hneI (by rw [hd1, hcon])
    have hdp2 : d2 ≠ chars.getD j 0 := by
      rw [hcj]; intro hcon; exact hneJ (by rw [hd2, hcon])
    rw [diffPositions_set_two chars i j d1 d2 hij hj hdp1 hdp2]
    rfl

/-! ## Generator preservation lemmas -/

theorem tryAdd_good (P : RawVariant → Prop) (maxV : Nat) (st : GenState)
    (m : List Str) (subs : List Substitution)
    (hst : ∀ v ∈ st.variants, P v) (hc : P ⟨m.flatten, subs⟩) :
    ∀ v ∈ (tryAdd maxV st m subs).1.variants, P v := by
  unfold tryAdd
  split
  · exact hst
  · split
    · exact hst
    · intro v hv
      dsimp only at hv
      rcases List.mem_append.mp hv with h | h
      · exact hst v h
      · rw [List.mem_singleton] at h
        subst h
        exact hc

theorem oneEditInner_good (P : RawVariant → Prop) (maxV : Nat) (chars : Str)
    (i : Nat) (proto : Nat) :
    ∀ subsList st, (∀ v ∈ st.variants, P v) →
      (∀ sub ∈ subsList,
        P ⟨((chars.map (fun c => [c])).set i sub.char).flatten,
           [makeSubstitution i [proto] sub]⟩) →
      ∀ v ∈ (oneEditInner maxV chars i proto subsList st).1.variants, P v := by
  intro subsList
  induction subsList with
  | nil => intro st hst _; exact hst
  | cons sub rest ih =>
    intro st hst hc
    rw [oneEditInner]
    have h1 := tryAdd_good P maxV st ((chars.map (fun c => [c])).set i sub.char)
      [makeSubstitution i [proto] sub] hst (hc sub (List.mem_cons_self _ _))
    split
    · exact ih _ h1 (fun s hs => hc s (List.mem_cons_of_mem _ hs))
    · exact h1

theorem oneEditPass_good (P : RawVariant → Prop) (maxPC maxV : Nat)
    (buckets : PrototypeBuckets) (chars : Str) :
    ∀ L st, (∀ v ∈ st.variants, P v) →
      (∀ ip ∈ L, ∀ subs, jsGet buckets [ip.2] = some subs →
        ∀ sub ∈ subs.take maxPC,
          P ⟨((chars.map (fun c => [c])).set ip.1 sub.char).flatten,
             [makeSubstitution ip.1 [ip.2] sub]⟩) →
      ∀ v ∈ (oneEditPass maxPC maxV buckets chars L st).1.variants, P v := by
  intro L
  induction L with
  | nil => intro st hst _; exact hst
  | cons ip rest ih =>
    intro st hst hc
    rcases ip with ⟨i, proto⟩
    rw [oneEditPass]
    cases hsub : jsGet buckets [proto] with
    | none => exact ih st hst (fun jp hjp => hc jp (List.mem_cons_of_mem _ hjp))
    | some subs =>
      dsimp only
      have h1 := oneEditInner_good P maxV chars i proto (subs.take maxPC) st hst
        (fun sub hs => hc (i, proto) (List.mem_cons_self _ _) subs hsub sub hs)
      split
      · exact ih _ h1 (fun jp hjp => hc jp (List.mem_cons_of_mem _ hjp))
      · exact h1

theorem twoEditInnerJ_good (P : RawVariant → Prop) (maxV : Nat) (chars : Str)
    (i j : Nat) (ci cj : Nat) (subI : ConfusableSubstitute) :
    ∀ subsList st, (∀ v ∈ st.variants, P v) →
      (∀ subJ ∈ subsList,
        P ⟨(((chars.map (fun c => [c])).set i subI.char).set j subJ.char).flatten,
           [makeSubstitution i [ci] subI, makeSubstitution j [cj] subJ]⟩) →
      ∀ v ∈ (twoEditInnerJ maxV chars i j ci cj subI subsList st).1.variants, P v := by
  intro subsList
  induction subsList with
  | nil => intro st hst _; exact hst
  | cons subJ rest ih =>
    intro st hst hc
    rw [twoEditInnerJ]
    have h1 := tryAdd_good P maxV st
      (((chars.map (fun c => [c])).set i subI.char).set j subJ.char)
      [makeSubstitution i [ci] subI, makeSubstitution j [cj] subJ] hst
      (hc subJ (List.mem_cons_self _ _))
    split
    · exact ih _ h1 (fun s hs => hc s (List.mem_cons_of_mem _ hs))
    · exact h1

theorem twoEditInnerI_good (P : RawVariant → Prop) (maxV : Nat) (chars : Str)
    (i j : Nat) (ci cj : Nat) (topJ : List ConfusableSubstitute) :
    ∀ subsList st, (∀ v ∈ st.variants, P v) →
      (∀ subI ∈ subsList, ∀ subJ ∈ topJ,
        P ⟨(((chars.map (fun c => [c])).set i subI.char).set j subJ.char).flatten,
           [makeSubstitution i [ci] subI, makeSubstitution j [cj] subJ]⟩) →
      ∀ v ∈ (twoEditInnerI maxV chars i j ci cj topJ subsList st).1.variants, P v := by
  intro subsList
  induction subsList with
  | nil => intro st hst _; exact hst
  | cons subI rest ih =>
    intro st hst hc
    rw [twoEditInnerI]
    have h1 := twoEditInnerJ_good P maxV chars i j ci cj subI topJ st hst
      (fun subJ hj => hc subI (List.mem_cons_self _ _) subJ hj)
    split
    · exact ih _ h1 (fun s hs => hc s (List.mem_cons_of_mem _ hs))
    · exact h1

theorem twoEditJ_good (P : RawVariant → Prop) (maxPC maxV : Nat)
    (buckets : PrototypeBuckets) (chars : Str) (i : Nat) (ci : Nat)
    (subsI : List ConfusableSubstitute) :
    ∀ L st, (∀ v ∈ st.variants, P v) →
      (∀ jp ∈ L, ∀ subsJ, jsGet buckets [jp.2] = some subsJ →
        ∀ subI ∈ subsI.take (min maxPC 5), ∀ subJ ∈ subsJ.take (min maxPC 5),
          P ⟨(((chars.map (fun c => [c])).set i subI.char).set jp.1 subJ.char).flatten,
             [makeSubstitution i [ci] subI, makeSubstitution jp.1 [jp.2] subJ]⟩) →
      ∀ v ∈ (twoEditJ maxPC maxV buckets chars i ci subsI L st).1.variants, P v := by
  intro L
  induction L with
  | nil => intro st hst _; exact hst
  | cons jp rest ih =>
    intro st hst hc
    rcases jp with ⟨j, cj⟩
    rw [twoEditJ]
    cases hsub : jsGet buckets [cj] with
    | none => exact ih st hst (fun q hq => hc q (List.mem_cons_of_mem _ hq))
    | some subsJ =>
      dsimp only
      have h1 := twoEditInnerI_good P maxV chars i j ci cj
        (subsJ.take (min maxPC 5)) (subsI.take (min maxPC 5)) st hst
        (fun subI hi subJ hj =>
          hc (j, cj) (List.mem_cons_self _ _) subsJ hsub subI hi subJ hj)
      split
      · exact ih _ h1 (fun q hq => hc q (List.mem_cons_of_mem _ hq))
      · exact h1

theorem twoEditI_good (P : RawVariant → Prop) (maxPC maxV : Nat)
    (buckets : PrototypeBuckets) (chars : Str) :
    ∀ L st, (∀ v ∈ st.variants, P v) →
      L.Pairwise (fun a b => a.1 < b.1) →
      (∀ ip jp, ip ∈ L → jp ∈ L → ip.1 < jp.1 →
        ∀ subsI subsJ, jsGet buckets [ip.2] = some subsI →
          jsGet buckets [jp.2] = some subsJ →
        ∀ subI ∈ subsI.take (min maxPC 5), ∀ subJ ∈ subsJ.take (min maxPC 5),
          P ⟨(((chars.map (fun c => [c])).set ip.1 subI.char).set jp.1 subJ.char).flatten,
             [makeSubstitution ip.1 [ip.2] subI, makeSubstitution jp.1 [jp.2] subJ]⟩) →
      ∀ v ∈ (twoEditI maxPC maxV buckets chars L st).1.variants, P v := by
  intro L
  induction L with
  | nil => intro st hst _ _; exact hst
  | cons ip rest ih =>
    intro st hst hPW hc
    rcases List.pairwise_cons.mp hPW with ⟨hhead, hrestPW⟩
    rcases ip with ⟨i, ci⟩
    rw [twoEditI]
    cases hsub : jsGet buckets [ci] with
    | none =>
      exact ih st hst hrestPW (fun a b ha hb => hc a b
        (List.mem_cons_of_mem _ ha) (List.mem_cons_of_mem _ hb))
    | some subsI =>
      dsimp only
      have h1 := twoEditJ_good P maxPC maxV buckets chars i ci subsI rest st hst
        (fun jp hjp subsJ hsubJ subI hi subJ hj =>
          hc (i, ci) jp (List.mem_cons_self _ _) (List.mem_cons_of_mem _ hjp)
            (hhead jp hjp) subsI subsJ hsub hsubJ subI hi subJ hj)
      split
      · exact ih _ h1 hrestPW (fun a b ha hb => hc a b
          (List.mem_cons_of_mem _ ha) (List.mem_cons_of_mem _ hb))
      · exact h1

theorem mem_finalize (v : RawVariant) (l : List RawVariant) (u : Bool) :
    v ∈ finalize l u ↔ v ∈ l := by
  unfold finalize
  exact List.mem_mergeSort

theorem enum_pairwise_lt {α : Type} (l : List α) :
    l.enum.Pairwise (fun a b => a.1 < b.1) := enumFrom_pairwise_lt l 0

/-! ## C3 -/

/-- C3: over buckets whose entries are single characters distinct from
their anchor (as `buildPrototypeBuckets` produces), every variant returned
by `generateVariants` is either a 1-edit variant differing from the
(lowercased) input label at exactly the one recorded position, or a 2-edit
variant differing at exactly the two recorded positions with the lower
position first; the recorded positions are strictly increasing in every
substitution list, and with `maxEdits = 1` every variant is a 1-edit
variant. -/
theorem generateVariants_edit_positions (env : JsEnv) (label : Str)
    (gopts : GenerateOptions) (bk : PrototypeBuckets) (cmap : ConfusableMap)
    (ws : ConfusableWeights)
    (hbk : ∀ c subs, jsGet bk [c] = some subs →
        ∀ s ∈ subs, s.char.length = 1 ∧ s.char ≠ [c]) :
    (∀ v ∈ generateVariants env label gopts (some bk) cmap ws,
        (Good1 (strLower env label) v ∨ Good2 (strLower env label) v)
        ∧ (v.substitutions.map (·.position)).Pairwise (· < ·))
    ∧ (gopts.maxEdits = some 1 →
        ∀ v ∈ generateVariants env label gopts (some bk) cmap ws,
          Good1 (strLower env label) v) := by
  -- the 1-edit pass preserves Good1 (hence also Good1-or-Good2)
  have pass1 : ∀ (P : RawVariant → Prop),
      (∀ v, Good1 (strLower env label) v → P v) →
      ∀ v ∈ (oneEditPass (gopts.maxPerChar.getD 10) (gopts.maxVariants.getD 5000)
        bk (strLower env label) (strLower env label).enum ⟨[], []⟩).1.variants, P v := by
    intro P himp
    apply oneEditPass_good P _ _ bk (strLower env label) (strLower env label).enum
      ⟨[], []⟩ (by intro v hv; simp at hv)
    intro ip hip subs hsubs sub hsub
    have hs := hbk ip.2 subs hsubs sub (List.mem_of_mem_take hsub)
    exact himp _ (cand1_good (strLower env label) ip.1 ip.2 sub
      (by simpa using hip) hs.1 hs.2)
  have pass2 : ∀ v ∈ (twoEditI (gopts.maxPerChar.getD 10) (gopts.maxVariants.getD 5000)
      bk (strLower env label) (strLower env label).enum
      (oneEditPass (gopts.maxPerChar.getD 10) (gopts.maxVariants.getD 5000)
        bk (strLower env label) (strLower env label).enum ⟨[], []⟩).1).1.variants,
      Good1 (strLower env label) v ∨ Good2 (strLower env label) v := by
    apply twoEditI_good _ _ _ bk (strLower env label) (strLower env label).enum _
      (pass1 _ (fun v h => Or.inl h)) (enum_pairwise_lt _)
    intro ip jp hip hjp hlt subsI subsJ hsI hsJ subI hi subJ hj
    have hsi := hbk ip.2 subsI hsI subI (List.mem_of_mem_take hi)
    have hsj := hbk jp.2 subsJ hsJ subJ (List.mem_of_mem_take hj)
    exact Or.inr (cand2_good (strLower env label) ip.1 jp.1 ip.2 jp.2 subI subJ
      hip hjp hlt hsi.1 hsi.2 hsj.1 hsj.2)
  have hposOf : ∀ v, Good1 (strLower env label) v ∨ Good2 (strLower env label) v →
      (v.substitutions.map (·.position)).Pairwise (· < ·) := by
    intro v hv
    rcases hv with ⟨s, hs, _, _⟩ | ⟨s, t, hs, hlt, _, _⟩
    · rw [hs]; simp
    · rw [hs]; simp [hlt]
  constructor
  · intro v hv
    unfold generateVariants at hv
    simp only [Option.getD_some] at hv
    split at hv
    · rw [mem_finalize] at hv
      have := pass1 (fun v => Good1 (strLower env label) v ∨ Good2 (strLower env label) v)
        (fun v h => Or.inl h) v hv
      exact ⟨this, hposOf v this⟩
    · split at hv
      · rw [mem_finalize] at hv
        have := pass2 v hv
        exact ⟨this, hposOf v this⟩
      · rw [mem_finalize] at hv
        have := pass1 (fun v => Good1 (strLower env label) v ∨ Good2 (strLower env label) v)
          (fun v h => Or.inl h) v hv
        exact ⟨this, hposOf v this⟩
  · intro hme v hv
    unfold generateVariants at hv
    rw [hme] at hv
    simp only [Option.getD_some] at hv
    split at hv
    · rw [mem_finalize] at hv
      exact pass1 (fun v => Good1 (strLower env label) v) (fun v h => h) v hv
    · split at hv
      · omega
      · rw [mem_finalize] at hv
        exact pass1 (fun v => Good1 (strLower env label) v) (fun v h => h) v hv

theorem bk0_entries : ∀ c subs, jsGet bk0 [c] = some subs →
    ∀ s ∈ subs, s.char.length = 1 ∧ s.char ≠ [c] := by
  intro c subs hc s hs
  rw [bk0, jsGet_cons] at hc
  split at hc
  · rename_i hk
    cases hc
    simp only [List.mem_singleton] at hs
    subst hs
    refine ⟨by simp, ?_⟩
    have h97 : c = 97 := by
      have := hk.symm
      simpa using this
    simp [h97]
  · simp [jsGet_nil] at hc

unseal List.merge List.mergeSort in
/-- Witness for C3: scanning `ab` over `bk0` with `maxEdits = 1` yields the
single variant `bb`, a good 1-edit variant at position 0. -/
theorem generateVariants_edit_positions_witness :
    Good1 (strLower env0 (str "ab"))
      ⟨[98, 98], [⟨0, [97], [98], toCodepoint [98], "Common", 1, 1, true⟩]⟩ := by
  have h := (generateVariants_edit_positions env0 (str "ab")
    ⟨some 1, none, none, none, none⟩ bk0 [] [] bk0_entries).2 rfl
  apply h
  have heq : generateVariants env0 (str "ab") ⟨some 1, none, none, none, none⟩
      (some bk0) [] [] =
      [⟨[98, 98], [⟨0, [97], [98], toCodepoint [98], "Common", 1, 1, true⟩]⟩] := rfl
  rw [heq]
  exact List.mem_singleton.mpr rfl

/-! ## C2 -/

unseal readDigits decodeLoop in
/-- C2: the claim says decoding an ACE label always terminates and returns
a best-effort string without raising. The decoder does terminate, but on
the label `xn--99999` the accumulated code point reaches 4760513, past the
Unicode range, and `String.fromCodePoint` raises a `RangeError` (modelled
as `none`) instead of returning a string. -/
theorem decodePunycodeLabel_range_error :
    decodePunycodeLabel (str "xn--99999") = none := rfl

/-! ## Reverse-scan spec functions and C4 -/

theorem foldl_add_eq_sum {α : Type} (f : α → ℚ) (l : List α) (a : ℚ) :
    l.foldl (fun acc x => acc + f x) a = a + (l.map f).sum := by
  induction l generalizing a with
  | nil => simp
  | cons x xs ih => simp [List.foldl_cons, ih, add_assoc]

theorem reverseFold_spec (env : JsEnv) (weights : ConfusableWeights)
    (cmap : ConfusableMap) :
    ∀ (L : List (Nat × Nat)) (acc : List Substitution × List Str),
      L.foldl (fun (acc : List Substitution × List Str) e =>
        match jsGet cmap [e.2] with
        | some ascii =>
          if asciiAlnum ascii ∧ [e.2] ≠ ascii then
            (acc.1 ++ [reverseSub env weights e.1 e.2 ascii], acc.2 ++ [ascii])
          else (acc.1, acc.2 ++ [[e.2]])
        | none => (acc.1, acc.2 ++ [[e.2]])) acc =
      (acc.1 ++ L.filterMap (fun e =>
          (confusableAt cmap e.2).map (fun ascii => reverseSub env weights e.1 e.2 ascii)),
       acc.2 ++ L.map (fun e =>
          match confusableAt cmap e.2 with
          | some a => a
          | none => [e.2])) := by
  intro L
  induction L with
  | nil => intro acc; simp
  | cons e rest ih =>
    intro acc
    rw [List.foldl_cons, List.filterMap_cons, List.map_cons]
    cases hg : jsGet cmap [e.2] with
    | none =>
      have h1 : confusableAt cmap e.2 = none := by simp [confusableAt, hg]
      dsimp only
      rw [ih, h1]
      simp
    | some ascii =>
      by_cases hc : asciiAlnum ascii ∧ [e.2] ≠ ascii
      · have h1 : confusableAt cmap e.2 = some ascii := by
          simp only [confusableAt, hg]
          rw [if_pos hc]
        dsimp only
        rw [if_pos hc, ih, h1]
        simp
      · have h1 : confusableAt cmap e.2 = none := by
          simp only [confusableAt, hg]
          rw [if_neg hc]
        dsimp only
        rw [if_neg hc, ih, h1]
        simp

/-- C4 (amended): for every domain on which `reverseScan` returns (its ACE
decode does not raise), the impersonates list is empty exactly when no
substitution was detected, and otherwise contains exactly one candidate:
the canonical all-ASCII reconstruction joined with the TLD, whose
similarity is the arithmetic mean of the detected substitutions'
`stableDanger` values. -/
theorem reverseScan_impersonates (env : JsEnv) (cmap : ConfusableMap)
    (ws : ConfusableWeights) (d : Str) (r : ReverseScanResult) (decoded : Str)
    (hr : reverseScan env cmap ws d = some r)
    (hd : decodedLabelOf env d = some decoded) :
    (r.impersonates = [] ↔ specSubs env cmap ws decoded = [])
    ∧ (specSubs env cmap ws decoded ≠ [] →
        r.impersonates =
          [⟨canonicalOf cmap decoded ++ [0x2E] ++ (splitDomain env d).tld,
            ((specSubs env cmap ws decoded).map (·.stableDanger)).sum
              / (specSubs env cmap ws decoded).length,
            specSubs env cmap ws decoded⟩]) := by
  unfold reverseScan at hr
  unfold decodedLabelOf at hd
  dsimp only at hr
  rw [hd] at hr
  dsimp only at hr
  rw [reverseFold_spec env ws cmap decoded.enum ([], [])] at hr
  dsimp only at hr
  rw [List.nil_append, List.nil_append] at hr
  have hcanon : (decoded.enum.map (fun e =>
      match confusableAt cmap e.2 with
      | some a => a
      | none => [e.2])).flatten = canonicalOf cmap decoded := by
    unfold canonicalOf
    rw [List.flatMap_def]
    congr 1
    have : (fun e : Nat × Nat =>
        match confusableAt cmap e.2 with
        | some a => a
        | none => [e.2]) = (fun ch =>
        match confusableAt cmap ch with
        | some a => a
        | none => [ch]) ∘ Prod.snd := rfl
    rw [this, ← List.map_map, List.enum_map_snd]
  rw [foldl_add_eq_sum, zero_add] at hr
  cases hr
  have hfold : List.filterMap (fun e => Option.map
      (fun ascii => reverseSub env ws e.1 e.2 ascii) (confusableAt cmap e.2))
      decoded.enum = specSubs env cmap ws decoded := rfl
  constructor
  · constructor
    · intro h
      dsimp only at h
      rw [hfold] at h
      by_cases hz : 0 < (specSubs env cmap ws decoded).length
      · rw [if_pos hz] at h
        simp at h
      · have : (specSubs env cmap ws decoded).length = 0 := by omega
        exact List.length_eq_zero.mp this
    · intro h
      dsimp only
      rw [hfold, h]
      simp
  · intro hne
    dsimp only
    rw [hfold, hcanon]
    have hz : 0 < (specSubs env cmap ws decoded).length := List.length_pos.mpr hne
    rw [if_pos hz, if_pos hz]

unseal readDigits decodeLoop in
/-- C4 counterexample to the claim as stated: on the domain
`xn--99999.com` the reverse scan does not return any impersonates list at
all — the punycode decode raises `RangeError` (`none`). -/
theorem reverseScan_range_error_counterexample :
    reverseScan env0 [] [] (str "xn--99999.com") = none := rfl

/-- Witness for C4 at the domain Cyrillic-а.com: the single impersonation
candidate is the canonical reconstruction with the mean similarity. -/
theorem reverseScan_impersonates_witness :
    rw0.impersonates =
      [⟨canonicalOf cmap1 [0x430] ++ [0x2E] ++ (splitDomain env0 dW).tld,
        ((specSubs env0 cmap1 [] [0x430]).map (·.stableDanger)).sum
          / (specSubs env0 cmap1 [] [0x430]).length,
        specSubs env0 cmap1 [] [0x430]⟩] := by
  have hsubs : specSubs env0 cmap1 [] [0x430] = [reverseSub env0 [] 0 0x430 [97]] := rfl
  exact (reverseScan_impersonates env0 cmap1 [] dW rw0 [0x430] rfl rfl).2
    (by rw [hsubs]; simp)

/-! ## Symmetry machinery (toward C7) -/

theorem jsGet_mem {β : Type} (l : List (Str × β)) (k : Str) (v : β)
    (h : jsGet l k = some v) : (k, v) ∈ l := by
  induction l with
  | nil => simp [jsGet_nil] at h
  | cons e rest ih =>
    rcases e with ⟨a, b⟩
    rw [jsGet_cons] at h
    split at h
    · rename_i ha
      cases h
      subst ha
      exact List.mem_cons_self _ _
    · exact List.mem_cons_of_mem _ (ih h)

theorem mem_mapSet (m : RawBucket) (k : Str) (v : ConfusableSubstitute)
    (e : Str × ConfusableSubstitute) (h : e ∈ mapSet m k v) :
    e = (k, v) ∨ e ∈ m := by
  unfold mapSet at h
  split at h
  · rcases List.mem_map.mp h with ⟨e0, he0, heq⟩
    by_cases h0 : e0.1 = k
    · simp only [h0, if_pos] at heq
      exact Or.inl heq.symm
    · simp only [h0, if_neg, if_false] at heq
      exact Or.inr (heq ▸ he0)
  · rcases List.mem_append.mp h with h1 | h1
    · exact Or.inr h1
    · rw [List.mem_singleton] at h1
      exact Or.inl h1

theorem mem_ensureBucket (raw : RawBuckets) (k : Str)
    (pm : Str × RawBucket) (h : pm ∈ ensureBucket raw k) :
    pm ∈ raw ∨ pm.2 = [] := by
  unfold ensureBucket at h
  split at h
  · exact Or.inl h
  · rcases List.mem_append.mp h with h1 | h1
    · exact Or.inl h1
    · rw [List.mem_singleton] at h1
      subst h1
      exact Or.inr rfl

theorem mem_rawUpdate (raw : RawBuckets) (k : Str) (f : RawBucket → RawBucket)
    (pm : Str × RawBucket) (h : pm ∈ rawUpdate raw k f) :
    pm ∈ raw ∨ ∃ m0, (k, m0) ∈ raw ∧ pm = (k, f m0) := by
  unfold rawUpdate at h
  rcases List.mem_map.mp h with ⟨e0, he0, heq⟩
  rcases e0 with ⟨a, b⟩
  by_cases h0 : a = k
  · subst h0
    right
    exact ⟨b, he0, by rw [← heq]; simp⟩
  · left
    rw [← heq]
    simpa [h0] using he0

theorem keysChar_addEdge (env : JsEnv) (inp : Bool) (raw : RawBuckets)
    (frm sub : Str) (d st : ℚ) (pv : Bool) (hk : KeysChar raw) :
    KeysChar (addEdge env inp raw frm sub d st pv) := by
  have hens : KeysChar (ensureBucket raw frm) := by
    intro pm hpm e he
    rcases mem_ensureBucket raw frm pm hpm with h1 | h1
    · exact hk pm h1 e he
    · rw [h1] at he
      simp at he
  have hupd : ∀ (v : ConfusableSubstitute), v.char = sub →
      KeysChar (rawUpdate (ensureBucket raw frm) frm (fun m => mapSet m sub v)) := by
    intro v hv pm hpm e he
    rcases mem_rawUpdate _ frm _ pm hpm with h1 | ⟨m0, hm0, heq⟩
    · exact hens pm h1 e he
    · subst heq
      rcases mem_mapSet m0 sub v e he with h2 | h2
      · subst h2
        exact hv
      · exact hens (frm, m0) hm0 e h2
  unfold addEdge
  split
  · exact hk
  · split
    · exact hk
    · dsimp only
      cases hbg : bucketGet (ensureBucket raw frm) frm sub with
      | some existing =>
        have hch : existing.char = sub := by
          unfold bucketGet at hbg
          cases hg1 : jsGet (ensureBucket raw frm) frm with
          | none => rw [hg1] at hbg; simp at hbg
          | some m =>
            rw [hg1] at hbg
            simp only [Option.some_bind] at hbg
            exact hens (frm, m) (jsGet_mem _ frm m hg1) (sub, existing)
              (jsGet_mem m sub existing hbg)
        dsimp only
        split
        · exact hupd _ hch
        · exact hens
      | none =>
        dsimp only
        exact hupd _ rfl

theorem rawHas_addEdge_mono (env : JsEnv) (inp : Bool) (raw : RawBuckets)
    (frm sub : Str) (d st : ℚ) (pv : Bool) (x s : Str)
    (h : RawHas raw x s) : RawHas (addEdge env inp raw frm sub d st pv) x s := by
  rcases h with ⟨m, hm, e, he, hes⟩
  have hens : ∀ y, jsGet raw y = some m →
      ∃ m2, jsGet (ensureBucket raw frm) y = some m2 ∧ ∀ e2 ∈ m, e2 ∈ m2 := by
    intro y hy
    by_cases hyf : y = frm
    · subst hyf
      refine ⟨m, ?_, fun e2 h2 => h2⟩
      rw [jsGet_ensureBucket_self, hy]
      rfl
    · exact ⟨m, by rw [jsGet_ensureBucket_other raw frm y hyf, hy], fun e2 h2 => h2⟩
  have hupd : ∀ (v : ConfusableSubstitute),
      RawHas (rawUpdate (ensureBucket raw frm) frm (fun mm => mapSet mm sub v)) x s := by
    intro v
    rcases hens x hm with ⟨m2, hm2, hsub⟩
    by_cases hxf : x = frm
    · subst hxf
      refine ⟨mapSet m2 sub v, ?_, ?_⟩
      · rw [jsGet_rawUpdate_self, hm2]
        rfl
      · by_cases hsb : s = sub
        · subst hsb
          refine ⟨(s, v), ?_, rfl⟩
          unfold mapSet
          split
          · rename_i hin
            rcases Option.isSome_iff_exists.mp hin with ⟨w, hw⟩
            exact List.mem_map.mpr ⟨(s, w), jsGet_mem m2 s w hw, by simp⟩
          · exact List.mem_append.mpr (Or.inr (List.mem_singleton.mpr rfl))
        · refine ⟨e, ?_, hes⟩
          unfold mapSet
          split
          · refine List.mem_map.mpr ⟨e, hsub e he, ?_⟩
            rw [if_neg (by rw [hes]; exact hsb)]
          · exact List.mem_append.mpr (Or.inl (hsub e he))
    · refine ⟨m2, ?_, e, hsub e he, hes⟩
      rw [jsGet_rawUpdate_other _ frm x _ hxf, hm2]
  unfold addEdge
  split
  · exact ⟨m, hm, e, he, hes⟩
  · split
    · exact ⟨m, hm, e, he, hes⟩
    · dsimp only
      cases hbg : bucketGet (ensureBucket raw frm) frm sub with
      | some existing =>
        dsimp only
        split
        · exact hupd _
        · rcases hens x hm with ⟨m2, hm2, hsub⟩
          exact ⟨m2, hm2, e, hsub e he, hes⟩
      | none =>
        dsimp only
        exact hupd _

theorem rawHas_addEdge_self (env : JsEnv) (raw : RawBuckets) (frm sub : Str)
    (d st : ℚ) (pv : Bool) (hne : frm ≠ sub) :
    RawHas (addEdge env true raw frm sub d st pv) frm sub := by
  have h := bucketGet_addEdge_self env true raw frm sub d st pv hne (Or.inl rfl)
  unfold bucketGet at h
  cases hg : jsGet (addEdge env true raw frm sub d st pv) frm with
  | none => rw [hg] at h; simp at h
  | some m =>
    rw [hg] at h
    simp only [Option.some_bind] at h
    exact ⟨m, hg, (sub, _), jsGet_mem m sub _ h, rfl⟩

theorem rawHas_ensureBucket_inv (raw : RawBuckets) (frm x s : Str)
    (h : RawHas (ensureBucket raw frm) x s) : RawHas raw x s := by
  rcases h with ⟨m, hm, e, he, hes⟩
  by_cases hxf : x = frm
  · subst hxf
    rw [jsGet_ensureBucket_self] at hm
    cases hg : jsGet raw x with
    | none =>
      rw [hg] at hm
      cases hm
      simp at he
    | some m0 =>
      rw [hg] at hm
      cases hm
      exact ⟨m0, hg, e, he, hes⟩
  · rw [jsGet_ensureBucket_other raw frm x hxf] at hm
    exact ⟨m, hm, e, he, hes⟩

theorem rawHas_update_inv (raw : RawBuckets) (frm sub : Str)
    (v : ConfusableSubstitute) (x s : Str)
    (h : RawHas (rawUpdate (ensureBucket raw frm) frm (fun m => mapSet m sub v)) x s) :
    RawHas raw x s ∨ (x = frm ∧ s = sub) := by
  rcases h with ⟨m, hm, e, he, hes⟩
  by_cases hxf : x = frm
  · subst hxf
    rw [jsGet_rawUpdate_self, jsGet_ensureBucket_self] at hm
    simp only [Option.map_some'] at hm
    cases hm
    rcases mem_mapSet _ sub v e he with h1 | h1
    · subst h1
      exact Or.inr ⟨rfl, hes ▸ rfl⟩
    · cases hg : jsGet raw x with
      | none =>
        rw [hg] at h1
        simp at h1
      | some m0 =>
        rw [hg] at h1
        exact Or.inl ⟨m0, hg, e, h1, hes⟩
  · rw [jsGet_rawUpdate_other _ frm x _ hxf,
      jsGet_ensureBucket_other raw frm x hxf] at hm
    exact Or.inl ⟨m, hm, e, he, hes⟩

theorem rawHas_addEdge_inv (env : JsEnv) (inp : Bool) (raw : RawBuckets)
    (frm sub : Str) (d st : ℚ) (pv : Bool) (x s : Str)
    (h : RawHas (addEdge env inp raw frm sub d st pv) x s) :
    RawHas raw x s ∨ (x = frm ∧ s = sub ∧ frm ≠ sub) := by
  unfold addEdge at h
  split at h
  · exact Or.inl h
  · rename_i hne
    split at h
    · exact Or.inl h
    · dsimp only at h
      revert h
      cases hbg : bucketGet (ensureBucket raw frm) frm sub with
      | some existing =>
        intro h
        dsimp only at h
        split at h
        · rcases rawHas_update_inv raw frm sub _ x s h with h1 | ⟨h1, h2⟩
          · exact Or.inl h1
          · exact Or.inr ⟨h1, h2, hne⟩
        · exact Or.inl (rawHas_ensureBucket_inv raw frm x s h)
      | none =>
        intro h
        dsimp only at h
        rcases rawHas_update_inv raw frm sub _ x s h with h1 | ⟨h1, h2⟩
        · exact Or.inl h1
        · exact Or.inr ⟨h1, h2, hne⟩

/-- The two bidirectional `addEdge` calls of a builder step preserve
symmetry of the raw state. -/
theorem rawSymm_addEdge_pair (env : JsEnv) (raw : RawBuckets) (a b : Str)
    (d1 st1 d2 st2 : ℚ) (pv1 pv2 : Bool) (hsymm : RawSymm raw) :
    RawSymm (addEdge env true (addEdge env true raw a b d1 st1 pv1)
      b a d2 st2 pv2) := by
  intro x s h
  rcases rawHas_addEdge_inv env true _ b a d2 st2 pv2 x s h with h1 | ⟨hx, hs, hne⟩
  · rcases rawHas_addEdge_inv env true raw a b d1 st1 pv1 x s h1 with h2 | ⟨hx, hs, hne⟩
    · exact rawHas_addEdge_mono env true _ b a d2 st2 pv2 s x
        (rawHas_addEdge_mono env true raw a b d1 st1 pv1 s x (hsymm x s h2))
    · rw [hx, hs]
      exact rawHas_addEdge_self env _ b a d2 st2 pv2 (Ne.symm hne)
  · rw [hx, hs]
    exact rawHas_addEdge_mono env true _ b a d2 st2 pv2 a b
      (rawHas_addEdge_self env raw a b d1 st1 pv1 (Ne.symm hne))

theorem mapPhase_symm (env : JsEnv) (weights : ConfusableWeights) :
    ∀ (entries : ConfusableMap) (raw : RawBuckets), RawSymm raw →
      RawSymm (mapPhase env true weights raw entries) := by
  intro entries
  induction entries with
  | nil => intro raw h; exact h
  | cons e rest ih =>
    intro raw hsymm
    unfold mapPhase
    rw [List.foldl_cons]
    apply ih
    dsimp only
    split
    · exact hsymm
    · exact rawSymm_addEdge_pair env raw e.2 e.1 _ _ _ _ _ _ hsymm

theorem weightInner_symm (env : JsEnv) (kA : Str) (hkA : strLower env kA = kA) :
    ∀ (targets : List (Str × ConfusableWeight)) (raw : RawBuckets),
      (∀ tv ∈ targets, strLower env tv.1 = tv.1) → RawSymm raw →
      RawSymm (targets.foldl (fun raw tv =>
        addEdge env true
          (addEdge env true raw (strLower env kA) tv.1
            tv.2.danger tv.2.stableDanger tv.2.idnaPvalid)
          (strLower env tv.1) kA tv.2.danger tv.2.stableDanger tv.2.idnaPvalid)
        raw) := by
  intro targets
  induction targets with
  | nil => intro raw _ h; exact h
  | cons tv rest ih =>
    intro raw hks hsymm
    rw [List.foldl_cons]
    apply ih _ (fun q hq => hks q (List.mem_cons_of_mem _ hq))
    rw [hkA, hks tv (List.mem_cons_self _ _)]
    exact rawSymm_addEdge_pair env raw kA tv.1 _ _ _ _ _ _ hsymm

theorem weightPhase_symm (env : JsEnv) :
    ∀ (ws : ConfusableWeights) (raw : RawBuckets),
      (∀ kv ∈ ws, strLower env kv.1 = kv.1 ∧ ∀ tv ∈ kv.2, strLower env tv.1 = tv.1) →
      RawSymm raw → RawSymm (weightPhase env true raw ws) := by
  intro ws
  induction ws with
  | nil => intro raw _ h; exact h
  | cons kv rest ih =>
    intro raw hkeys hsymm
    unfold weightPhase
    rw [List.foldl_cons]
    apply ih
    · exact fun q hq => hkeys q (List.mem_cons_of_mem _ hq)
    · exact weightInner_symm env kv.1 (hkeys kv (List.mem_cons_self _ _)).1 kv.2 raw
        (hkeys kv (List.mem_cons_self _ _)).2 hsymm

theorem rawSymm_nil : RawSymm [] := by
  intro x s h
  rcases h with ⟨m, hm, _⟩
  simp [jsGet_nil] at hm

theorem keysChar_mapPhase (env : JsEnv) (inp : Bool) (weights : ConfusableWeights) :
    ∀ (entries : ConfusableMap) (raw : RawBuckets), KeysChar raw →
      KeysChar (mapPhase env inp weights raw entries) := by
  intro entries
  induction entries with
  | nil => intro raw h; exact h
  | cons e rest ih =>
    intro raw hk
    unfold mapPhase
    rw [List.foldl_cons]
    apply ih
    dsimp only
    split
    · exact hk
    · exact keysChar_addEdge env inp _ e.1 e.2 _ _ _
        (keysChar_addEdge env inp raw e.2 e.1 _ _ _ hk)

theorem keysChar_weightPhase (env : JsEnv) (inp : Bool) :
    ∀ (ws : ConfusableWeights) (raw : RawBuckets), KeysChar raw →
      KeysChar (weightPhase env inp raw ws) := by
  intro ws
  induction ws with
  | nil => intro raw h; exact h
  | cons kv rest ih =>
    intro raw hk
    unfold weightPhase
    rw [List.foldl_cons]
    apply ih
    have hinner : ∀ (targets : List (Str × ConfusableWeight)) (r : RawBuckets),
        KeysChar r →
        KeysChar (targets.foldl (fun r tv =>
          addEdge env inp
            (addEdge env inp r (strLower env kv.1) tv.1
              tv.2.danger tv.2.stableDanger tv.2.idnaPvalid)
            (strLower env tv.1) kv.1 tv.2.danger tv.2.stableDanger tv.2.idnaPvalid)
          r) := by
      intro targets
      induction targets with
      | nil => intro r h; exact h
      | cons tv rest2 ih2 =>
        intro r hr
        rw [List.foldl_cons]
        exact ih2 _ (keysChar_addEdge env inp _ _ kv.1 _ _ _
          (keysChar_addEdge env inp r _ tv.1 _ _ _ hr))
    exact hinner kv.2 raw hk

theorem keysChar_nil : KeysChar [] := by
  intro pm hpm
  simp at hpm

theorem keysChar_rawBuckets (env : JsEnv) (inp : Bool) (cmap : ConfusableMap)
    (ws : ConfusableWeights) : KeysChar (rawBuckets env inp cmap ws) :=
  keysChar_weightPhase env inp ws _
    (keysChar_mapPhase env inp ws cmap [] keysChar_nil)

theorem bucketHas_iff_rawHas (u : Bool) (k : Nat) (raw : RawBuckets)
    (hkc : KeysChar raw) (hcap : ∀ pm ∈ raw, pm.2.length ≤ k) (x s : Str) :
    bucketHas (finalizeBuckets u k raw) x s ↔ RawHas raw x s := by
  unfold bucketHas RawHas
  rw [jsGet_finalizeBuckets]
  cases hg : jsGet raw x with
  | none => simp
  | some m =>
    simp only [Option.map_some', Option.getD_some]
    have hlen : ((m.map (·.2)).mergeSort
        (fun a b => decide (entryScore u b ≤ entryScore u a))).length ≤ k := by
      rw [List.length_mergeSort, List.length_map]
      exact hcap (x, m) (jsGet_mem raw x m hg)
    rw [List.take_of_length_le hlen]
    constructor
    · intro ⟨e, he, hes⟩
      rw [List.mem_mergeSort] at he
      rcases List.mem_map.mp he with ⟨p, hp, hpe⟩
      refine ⟨m, rfl, p, hp, ?_⟩
      rw [← hkc (x, m) (jsGet_mem raw x m hg) p hp, hpe, hes]
    · intro ⟨m2, hm2, p, hp, hps⟩
      cases hm2
      refine ⟨p.2, ?_, ?_⟩
      · rw [List.mem_mergeSort]
        exact List.mem_map.mpr ⟨p, hp, rfl⟩
      · rw [hkc (x, m) (jsGet_mem raw x m hg) p hp, hps]

/-! ## C7 -/

/-- C7 (amended): with `includeNonPvalid` set, the graph produced by
`buildPrototypeBuckets` is symmetric provided the weight-table keys are
fixed points of lowercasing and no raw bucket exceeds `maxPerChar` (so the
final truncation drops nothing): every bucket entry from `x` to a
substitute `s` has an inverse entry in the bucket anchored at `s`. -/
theorem buildPrototypeBuckets_symm (env : JsEnv) (opts : BuildOptions)
    (cmap : ConfusableMap) (ws : ConfusableWeights)
    (hinp : opts.includeNonPvalid = some true)
    (hkeys : ∀ kv ∈ ws, strLower env kv.1 = kv.1 ∧
      ∀ tv ∈ kv.2, strLower env tv.1 = tv.1)
    (hcap : ∀ pm ∈ rawBuckets env true cmap ws,
      pm.2.length ≤ opts.maxPerChar.getD 50)
    (x s : Str)
    (h : bucketHas (buildPrototypeBuckets env opts cmap ws) x s) :
    bucketHas (buildPrototypeBuckets env opts cmap ws) s x := by
  unfold buildPrototypeBuckets at h ⊢
  rw [hinp] at h ⊢
  simp only [Option.getD_some] at h ⊢
  have hkc : KeysChar (rawBuckets env true cmap ws) :=
    keysChar_rawBuckets env true cmap ws
  rw [bucketHas_iff_rawHas _ _ _ hkc hcap] at h ⊢
  have hsymm : RawSymm (rawBuckets env true cmap ws) := by
    unfold rawBuckets
    exact weightPhase_symm env ws _ hkeys
      (mapPhase_symm env ws cmap [] rawSymm_nil)
  exact hsymm x s h

unseal List.merge List.mergeSort in
/-- C7 counterexample: with `includeNonPvalid` set, bucket b holds the
substitute a, but the truncated bucket a (capped at one entry, won by c)
has no inverse entry b — the graph is not symmetric as claimed. -/
theorem buckets_symm_counterexample :
    bucketHas bkC7 (str "b") (str "a") ∧ ¬ bucketHas bkC7 (str "a") (str "b") := by
  unfold bucketHas
  constructor
  · decide
  · decide

unseal List.merge List.mergeSort in
/-- Witness for C7 at the single-pair data with the default cap: the
inverse of the edge b to a is present. -/
theorem buildPrototypeBuckets_symm_witness :
    bucketHas (buildPrototypeBuckets env0 ⟨some true, none, none⟩ cmapW [])
      (str "a") (str "b") := by
  apply buildPrototypeBuckets_symm env0 ⟨some true, none, none⟩ cmapW [] rfl
    (by intro kv hkv; simp at hkv) (by decide) (str "b") (str "a")
  unfold bucketHas
  decide

/-! ## Lowercasing lemmas (toward C10) -/

theorem strLower_fixed_of (env : JsEnv) (t : Str)
    (h : ∀ x ∈ t, env.lowerCp x = [x]) : strLower env t = t := by
  induction t with
  | nil => rfl
  | cons a l ih =>
    unfold strLower at ih ⊢
    rw [List.flatMap_cons, h a (List.mem_cons_self _ _),
      ih (fun x hx => h x (List.mem_cons_of_mem _ hx))]
    rfl

theorem mem_strLower_fixed (env : JsEnv)
    (hid : ∀ c x, x ∈ env.lowerCp c → env.lowerCp x = [x]) (s : Str) :
    ∀ x ∈ strLower env s, env.lowerCp x = [x] := by
  intro x hx
  rcases List.mem_flatMap.mp hx with ⟨c, _, hxc⟩
  exact hid c x hxc

theorem strLower_idem (env : JsEnv)
    (hid : ∀ c x, x ∈ env.lowerCp c → env.lowerCp x = [x]) (s : Str) :
    strLower env (strLower env s) = strLower env s :=
  strLower_fixed_of env _ (mem_strLower_fixed env hid s)

theorem findIdx?_decomp {α : Type} (p : α → Bool) :
    ∀ (l : List α) (i j : Nat), l.findIdx? p i = some j →
      i ≤ j ∧ ∃ A x B, l = A ++ x :: B ∧ A.length = j - i ∧ p x := by
  intro l
  induction l with
  | nil => intro i j h; simp at h
  | cons a l ih =>
    intro i j h
    rw [List.findIdx?_cons] at h
    split at h
    · rename_i hp
      cases h
      exact ⟨le_rfl, [], a, l, rfl, by simp, hp⟩
    · rcases ih (i + 1) j h with ⟨hij, A, x, B, hl, hA, hp⟩
      refine ⟨by omega, a :: A, x, B, by rw [hl]; rfl, ?_, hp⟩
      simp only [List.length_cons, hA]
      omega

theorem lastIndexOf_decomp (l : Str) (c : Nat) (h : lastIndexOf l c ≠ -1) :
    ∃ A B, l = A ++ c :: B ∧ (A.length : Int) = lastIndexOf l c := by
  unfold lastIndexOf at h ⊢
  cases hf : l.reverse.findIdx? (fun x => decide (x = c)) with
  | none => rw [hf] at h; simp at h
  | some j =>
    rcases findIdx?_decomp _ l.reverse 0 j hf with ⟨_, A0, x, B0, hl, hA, hp⟩
    have hx : x = c := by simpa using hp
    rw [hx] at hl
    have hlen : l.reverse.length = A0.length + 1 + B0.length := by
      rw [hl]; simp only [List.length_append, List.length_cons]; omega
    have hl2 : l = B0.reverse ++ c :: A0.reverse := by
      have := congrArg List.reverse hl
      rw [List.reverse_reverse] at this
      rw [this]
      simp
    refine ⟨B0.reverse, A0.reverse, hl2, ?_⟩
    dsimp only
    simp only [List.length_reverse] at hlen ⊢
    omega

theorem take_append_cons {α : Type} (A : List α) (x : α) (B : List α) :
    (A ++ x :: B).take A.length = A := by
  rw [List.take_left']
  rfl

theorem drop_append_cons {α : Type} (A : List α) (x : α) (B : List α) :
    (A ++ x :: B).drop (A.length + 1) = B := by
  have : A ++ x :: B = (A ++ [x]) ++ B := by simp
  rw [this, List.drop_left']
  simp

/-! ## C10 -/

/-- C10: `splitDomain` lowercases the whole domain and strips one trailing
dot before splitting, splits at a known multi-part TLD or the last dot
(defaulting the TLD to `com` when no dot remains), and returns a label and
TLD that are both fixed points of lowercasing; consequently the scan and
reverse-scan pipelines are insensitive to the input's letter case. The
hypotheses state what Unicode lowercasing guarantees: the image of
`toLowerCase` is itself lowercase, ASCII lowercase letters and the dot are
fixed. -/
theorem splitDomain_lowercases (env : JsEnv) (d : Str)
    (hid : ∀ c x, x ∈ env.lowerCp c → env.lowerCp x = [x])
    (hascii : ∀ c, 0x61 ≤ c → c ≤ 0x7A → env.lowerCp c = [c])
    (hdot : env.lowerCp 0x2E = [0x2E]) :
    splitDomain env (strLower env d) = splitDomain env d
    ∧ ((strLower env d).getLast? ≠ some 0x2E →
        splitDomain env (d ++ [0x2E]) = splitDomain env d)
    ∧ strLower env (splitDomain env d).label = (splitDomain env d).label
    ∧ strLower env (splitDomain env d).tld = (splitDomain env d).tld
    ∧ ((splitDomain env d).label ++ [0x2E] ++ (splitDomain env d).tld
          = stripTrailingDot (strLower env d)
        ∨ ((splitDomain env d).tld = str "com"
          ∧ (splitDomain env d).label = stripTrailingDot (strLower env d)))
    ∧ (∀ cmap ws r1 r2, reverseScan env cmap ws d = some r1 →
        reverseScan env cmap ws (strLower env d) = some r2 →
        r1.impersonates = r2.impersonates)
    ∧ (∀ fonts cmap ws sopts,
        (scan env fonts cmap ws d sopts).variants
          = (scan env fonts cmap ws (strLower env d) sopts).variants) := by
  have hsplit : splitDomain env (strLower env d) = splitDomain env d := by
    unfold splitDomain
    rw [strLower_idem env hid d]
  have hmemLower : ∀ x ∈ stripTrailingDot (strLower env d), env.lowerCp x = [x] := by
    intro x hx
    apply mem_strLower_fixed env hid d
    unfold stripTrailingDot at hx
    rcases hg : (strLower env d).getLast? with _ | c
    · rw [hg] at hx; exact hx
    · rw [hg] at hx
      split at hx
      · exact (List.dropLast_sublist _).mem hx
      · exact hx
  have hstrip : ((strLower env d).getLast? ≠ some 0x2E →
      splitDomain env (d ++ [0x2E]) = splitDomain env d) := by
    intro hlast
    unfold splitDomain
    have h1 : strLower env (d ++ [0x2E]) = strLower env d ++ [0x2E] := by
      unfold strLower
      rw [List.flatMap_append]
      simp [hdot]
    have h2 : stripTrailingDot (strLower env d ++ [0x2E]) = strLower env d := by
      unfold stripTrailingDot
      split
      · rename_i heq
        exact List.dropLast_concat
      · rename_i heq
        exact absurd (List.getLast?_concat _) heq
    have h3 : stripTrailingDot (strLower env d) = strLower env d := by
      unfold stripTrailingDot
      split
      · rename_i heq
        exact absurd heq hlast
      · rfl
    rw [h1, h2, h3]
  have hmain : strLower env (splitDomain env d).label = (splitDomain env d).label
      ∧ strLower env (splitDomain env d).tld = (splitDomain env d).tld
      ∧ ((splitDomain env d).label ++ [0x2E] ++ (splitDomain env d).tld
            = stripTrailingDot (strLower env d)
          ∨ ((splitDomain env d).tld = str "com"
            ∧ (splitDomain env d).label = stripTrailingDot (strLower env d))) := by
    unfold splitDomain
    dsimp only
    cases hf : knownMultiPart.find? (fun tld =>
        (0x2E :: tld).isSuffixOf (stripTrailingDot (strLower env d))) with
    | some tld =>
      dsimp only
      have hpred := List.find?_some hf
      have hsuf : (0x2E :: tld) <:+ stripTrailingDot (strLower env d) :=
        List.isSuffixOf_iff_suffix.mp hpred
      rcases hsuf with ⟨pre, hpre⟩
      have hlen : (stripTrailingDot (strLower env d)).length - (tld.length + 1)
          = pre.length := by
        rw [← hpre]
        simp
      have hlabel : (stripTrailingDot (strLower env d)).take
          ((stripTrailingDot (strLower env d)).length - (tld.length + 1)) = pre := by
        rw [hlen, ← hpre]
        exact take_append_cons pre 0x2E tld
      rw [hlabel]
      refine ⟨?_, ?_, Or.inl ?_⟩
      · apply strLower_fixed_of
        intro x hx
        apply hmemLower
        rw [← hpre]
        exact List.mem_append.mpr (Or.inl hx)
      · apply strLower_fixed_of
        intro x hx
        apply hmemLower
        rw [← hpre]
        exact List.mem_append.mpr (Or.inr (List.mem_cons_of_mem _ hx))
      · rw [← hpre]
        simp
    | none =>
      dsimp only
      by_cases hld : lastIndexOf (stripTrailingDot (strLower env d)) 0x2E = -1
      · rw [if_pos hld]
        refine ⟨?_, ?_, Or.inr ⟨rfl, rfl⟩⟩
        · exact strLower_fixed_of env _ hmemLower
        · apply strLower_fixed_of
          intro x hx
          have : x = 99 ∨ x = 111 ∨ x = 109 := by
            simpa [str] using hx
          rcases this with h | h | h <;> subst h
          · exact hascii 99 (by decide) (by decide)
          · exact hascii 111 (by decide) (by decide)
          · exact hascii 109 (by decide) (by decide)
      · rw [if_neg hld]
        rcases lastIndexOf_decomp _ 0x2E hld with ⟨A, B, hAB, hlen⟩
        have htn : (lastIndexOf (stripTrailingDot (strLower env d)) 0x2E).toNat
            = A.length := by
          rw [← hlen]
          simp
        have hlabel : (stripTrailingDot (strLower env d)).take
            (lastIndexOf (stripTrailingDot (strLower env d)) 0x2E).toNat = A := by
          rw [htn, hAB]
          exact take_append_cons A 0x2E B
        have htld : (stripTrailingDot (strLower env d)).drop
            ((lastIndexOf (stripTrailingDot (strLower env d)) 0x2E).toNat + 1) = B := by
          rw [htn, hAB]
          exact drop_append_cons A 0x2E B
        rw [hlabel, htld]
        refine ⟨?_, ?_, Or.inl ?_⟩
        · apply strLower_fixed_of
          intro x hx
          apply hmemLower
          rw [hAB]
          exact List.mem_append.mpr (Or.inl hx)
        · apply strLower_fixed_of
          intro x hx
          apply hmemLower
          rw [hAB]
          exact List.mem_append.mpr (Or.inr (List.mem_cons_of_mem _ hx))
        · rw [hAB]
          simp
  refine ⟨hsplit, hstrip, hmain.1, hmain.2.1, hmain.2.2, ?_, ?_⟩
  · intro cmap ws r1 r2 h1 h2
    unfold reverseScan at h1 h2
    dsimp only at h1 h2
    rw [hsplit] at h2
    revert h1 h2
    cases hdec : (if (splitDomain env d).label.take 4 = str "xn--" then
        decodePunycodeLabel (splitDomain env d).label
      else some (splitDomain env d).label) with
    | none =>
      intro h1 h2
      cases h1
    | some chars =>
      intro h1 h2
      dsimp only at h1 h2
      cases h1
      cases h2
      rfl
  · intro fonts cmap ws sopts
    unfold scan
    dsimp only
    rw [hsplit]

/-- Witness for C10 at a mixed-case domain over the ASCII environment. -/
theorem splitDomain_lowercases_witness :
    splitDomain env0 (strLower env0 (str "PayPal.Com"))
      = splitDomain env0 (str "PayPal.Com") :=
  (splitDomain_lowercases env0 (str "PayPal.Com")
    (by
      intro c x hx
      simp only [env0, List.mem_singleton] at hx
      by_cases h : 0x41 ≤ c ∧ c ≤ 0x5A
      · rw [if_pos h] at hx
        subst hx
        simp only [env0]
        rw [if_neg (show ¬ (0x41 ≤ c + 32 ∧ c + 32 ≤ 0x5A) from
          fun hk => absurd (le_trans (Nat.add_le_add_right h.1 32) hk.2) (by decide))]
      · rw [if_neg h] at hx
        subst hx
        simp only [env0]
        rw [if_neg h])
    (by
      intro c h1 h2
      simp only [env0]
      rw [if_neg (show ¬ (0x41 ≤ c ∧ c ≤ 0x5A) from
        fun hk => absurd (le_trans h1 hk.2) (by decide))])
    (by decide)).1

/-! ## C1 -/

/-- C1: for every list of substitutions, `computeDangerScore` returns the
clamp to the unit interval of the product over the substitutions of the score
key (`danger` if `useMaxDanger` is set, else `stableDanger`), multiplied by
the multi-edit penalty and by 0.9 exactly when the substitutions span more
than one distinct script; the empty list scores exactly 0, and a single
substitution scores its own `stableDanger` by default (its score lying in the
unit interval, as the data model guarantees). -/
theorem computeDangerScore_spec (subs : List Substitution) (opts : ScoreOptions) :
    computeDangerScore [] opts = 0
    ∧ (subs ≠ [] →
        computeDangerScore subs opts =
          clamp01 ((subs.map (subScore (opts.useMaxDanger.getD false))).prod
            * (1 - (1/10) * ((subs.length : ℚ) - 1))
            * (if 1 < distinctScripts subs then (9 : ℚ)/10 else 1)))
    ∧ (∀ s : Substitution, 0 ≤ s.stableDanger → s.stableDanger ≤ 1 →
        computeDangerScore [s] {} = s.stableDanger) := by
  refine ⟨by simp [computeDangerScore], ?_, ?_⟩
  · intro hne
    have hlen : subs.length ≠ 0 := by simpa using hne
    simp only [computeDangerScore, hlen, if_false, clamp01]
    rw [foldl_mul_eq_prod, one_mul]
    by_cases h : 1 < distinctScripts subs <;> simp [h, mul_comm, mul_assoc, mul_left_comm]
  · intro s h0 h1
    have hd : distinctScripts [s] = 1 := by
      simp [distinctScripts, List.dedup_cons_of_not_mem]
    simp only [computeDangerScore, hd, List.length_cons, List.length_nil]
    norm_num [subScore, ScoreOptions.useMaxDanger]
    rw [min_eq_right h1, max_eq_right h0]

/-- Witness for C1 at a concrete substitution. -/
theorem computeDangerScore_spec_witness :
    computeDangerScore [exSub] {} = 9/10 :=
  (computeDangerScore_spec [] {}).2.2 exSub (by norm_num [exSub]) (by norm_num [exSub])

/-! ## Bootstring digit lemmas (toward C6) -/

theorem bsThreshold_pos (k bias : Nat) : 1 ≤ bsThreshold k bias := by
  unfold bsThreshold
  split
  · omega
  · split <;> omega

theorem bsThreshold_le (k bias : Nat) : bsThreshold k bias ≤ 26 := by
  unfold bsThreshold
  split
  · omega
  · split <;> omega

theorem le_digitChar (d : Nat) : 0x30 ≤ digitChar d := by
  unfold digitChar
  split <;> omega

theorem digitValue_digitChar (d : Nat) (h : d < 36) : digitValue (digitChar d) = d := by
  unfold digitValue digitChar
  by_cases h26 : d < 26
  · rw [if_pos h26, if_neg (by omega), if_neg (by omega), if_pos (by omega)]
    omega
  · rw [if_neg h26, if_pos (by omega)]
    omega

theorem encodeDigits_ne_nil (bias q k : Nat) : encodeDigits bias q k ≠ [] := by
  rw [encodeDigits]
  split <;> simp

theorem mem_encodeDigits (bias : Nat) :
    ∀ q k, ∀ c ∈ encodeDigits bias q k, 0x30 ≤ c := by
  intro q
  induction q using Nat.strong_induction_on with
  | _ q ih =>
    intro k c hc
    rw [encodeDigits] at hc
    split at hc
    · rcases List.mem_singleton.mp hc with rfl
      exact le_digitChar _
    · rcases List.mem_cons.mp hc with rfl | hc2
      · exact le_digitChar _
      · have ht := bsThreshold_pos k bias
        rename_i hq
        refine ih _ ?_ (k + 36) c hc2
        have := Nat.div_le_self (q - bsThreshold k bias) (36 - bsThreshold k bias)
        omega

theorem encode_delta_arith (i w t r m a q : Nat) (he : t + r + m * a = q) :
    i + (t + r) * w + a * (w * m) = i + q * w := by
  rw [← he]
  ring

theorem get_append_cons_self (pre : Str) (d : Nat) (tail : Str)
    (h : pre.length < (pre ++ d :: tail).length) :
    (pre ++ d :: tail).get ⟨pre.length, h⟩ = d := by
  rw [List.get_eq_getElem, List.getElem_append_right (le_refl pre.length)]
  simp

/-- Reading back one variable-length integer: the decoder's digit loop,
started at the digits `encodeDigits` emitted for `q` under the same bias
and digit index, accumulates exactly `q * w` and stops right after them. -/
theorem readDigits_encodeDigits (bias : Nat) :
    ∀ q k i w (pre rest : Str),
      readDigits (pre ++ (encodeDigits bias q k ++ rest)) bias pre.length i w k
        = (i + q * w, pre.length + (encodeDigits bias q k).length) := by
  intro q
  induction q using Nat.strong_induction_on with
  | _ q ih =>
    intro k i w pre rest
    have ht1 := bsThreshold_pos k bias
    have ht26 := bsThreshold_le k bias
    rw [encodeDigits]
    by_cases hq : q < bsThreshold k bias
    · rw [dif_pos hq]
      simp only [List.singleton_append]
      rw [readDigits]
      have hlen : pre.length < (pre ++ digitChar q :: rest).length := by
        simp
      rw [dif_pos hlen, get_append_cons_self, digitValue_digitChar q (by omega)]
      rw [if_neg (by omega), if_pos hq]
      simp
    · rw [dif_neg hq]
      have hmlt : (q - bsThreshold k bias) % (36 - bsThreshold k bias)
          < 36 - bsThreshold k bias := Nat.mod_lt _ (by omega)
      simp only [List.cons_append]
      rw [readDigits]
      have hlen : pre.length <
          (pre ++ digitChar (bsThreshold k bias +
            (q - bsThreshold k bias) % (36 - bsThreshold k bias)) ::
            (encodeDigits bias ((q - bsThreshold k bias) / (36 - bsThreshold k bias))
              (k + 36) ++ rest)).length := by
        simp
      rw [dif_pos hlen, get_append_cons_self, digitValue_digitChar _ (by omega)]
      rw [if_neg (by omega), if_neg (by omega)]
      have hres : pre ++ digitChar (bsThreshold k bias +
            (q - bsThreshold k bias) % (36 - bsThreshold k bias)) ::
            (encodeDigits bias ((q - bsThreshold k bias) / (36 - bsThreshold k bias))
              (k + 36) ++ rest)
          = (pre ++ [digitChar (bsThreshold k bias +
              (q - bsThreshold k bias) % (36 - bsThreshold k bias))]) ++
            (encodeDigits bias ((q - bsThreshold k bias) / (36 - bsThreshold k bias))
              (k + 36) ++ rest) := by
        simp
      have hpos : pre.length + 1 = (pre ++ [digitChar (bsThreshold k bias +
          (q - bsThreshold k bias) % (36 - bsThreshold k bias))]).length := by
        simp
      rw [hres, hpos, ih _ (by
        have := Nat.div_le_self (q - bsThreshold k bias) (36 - bsThreshold k bias)
        omega)]
      have hmd := Nat.mod_add_div (q - bsThreshold k bias) (36 - bsThreshold k bias)
      have e2 : bsThreshold k bias + (q - bsThreshold k bias) % (36 - bsThreshold k bias)
          + (36 - bsThreshold k bias) *
            ((q - bsThreshold k bias) / (36 - bsThreshold k bias)) = q := by
        omega
      rw [Prod.mk.injEq]
      constructor
      · exact encode_delta_arith i w _ _ _ _ q e2
      · simp
        omega

theorem lexLeB_trans : ∀ a b c : Nat × Nat, lexLeB a b → lexLeB b c → lexLeB a c := by
  intro a b c h1 h2
  unfold lexLeB at h1 h2 ⊢
  simp only [decide_eq_true_eq] at h1 h2 ⊢
  rcases h1 with h | h
  · rcases h2 with g | g
    · exact Or.inl (lt_trans h g)
    · exact Or.inl (by omega)
  · rcases h2 with g | g
    · exact Or.inl (by omega)
    · exact Or.inr (by omega)

theorem lexLeB_total : ∀ a b : Nat × Nat, lexLeB a b || lexLeB b a := by
  intro a b
  unfold lexLeB
  by_cases h : lexLeB a b = true
  · unfold lexLeB at h
    simp [h]
  · unfold lexLeB at h
    simp only [decide_eq_true_eq] at h
    have : b.1 < a.1 ∨ (b.1 = a.1 ∧ b.2 ≤ a.2) := by omega
    simp [this]

theorem insertIdx_perm {α : Type} (a : α) :
    ∀ (n : Nat) (l : List α), n ≤ l.length → List.Perm (l.insertIdx n a) (a :: l) := by
  intro n
  induction n with
  | zero =>
    intro l h
    rw [List.insertIdx_zero]
  | succ n ih =>
    intro l h
    cases l with
    | nil => simp at h
    | cons b t =>
      rw [List.insertIdx_succ_cons]
      exact ((ih t (by simpa using h)).cons b).trans (List.Perm.swap a b t)

theorem map_insertIdx {α β : Type} (f : α → β) (a : α) :
    ∀ (n : Nat) (l : List α), (l.insertIdx n a).map f = (l.map f).insertIdx n (f a) := by
  intro n
  induction n with
  | zero =>
    intro l
    rw [List.insertIdx_zero, List.insertIdx_zero, List.map_cons]
  | succ n ih =>
    intro l
    cases l with
    | nil => simp
    | cons b t =>
      rw [List.insertIdx_succ_cons, List.map_cons, List.map_cons,
        List.insertIdx_succ_cons, ih]

theorem countP_insertIdx {α : Type} (p : α → Bool) (a : α) (n : Nat) (l : List α)
    (h : n ≤ l.length) :
    (l.insertIdx n a).countP p = l.countP p + if p a then 1 else 0 := by
  rw [(insertIdx_perm a n l h).countP_eq, List.countP_cons]

/-- Inserting a fresh key at its rank keeps a key-sorted list sorted. -/
theorem pairwise_insertIdx_countP (x : Nat × Nat) :
    ∀ (l : List (Nat × Nat)), l.Pairwise (fun a b => a.1 < b.1) →
      (∀ e ∈ l, e.1 ≠ x.1) →
      (l.insertIdx (l.countP (fun e => decide (e.1 < x.1))) x).Pairwise
        (fun a b => a.1 < b.1) := by
  intro l
  induction l with
  | nil =>
    intro _ _
    rw [List.countP_nil, List.insertIdx_zero]
    simp
  | cons b t ih =>
    intro hp hx
    rcases List.pairwise_cons.mp hp with ⟨hbt, hpt⟩
    by_cases hb : b.1 < x.1
    · have hc : (b :: t).countP (fun e => decide (e.1 < x.1))
          = t.countP (fun e => decide (e.1 < x.1)) + 1 := by
        rw [List.countP_cons]
        simp [hb]
      rw [hc, List.insertIdx_succ_cons, List.pairwise_cons]
      constructor
      · intro e he
        rcases (List.mem_insertIdx (List.countP_le_length _)).mp he with rfl | het
        · exact hb
        · exact hbt e het
      · exact ih hpt (fun e he => hx e (List.mem_cons_of_mem b he))
    · have hxb : x.1 < b.1 := by
        have := hx b (List.mem_cons_self b t)
        omega
      have hc : (b :: t).countP (fun e => decide (e.1 < x.1)) = 0 := by
        rw [List.countP_eq_zero]
        intro e he
        rcases List.mem_cons.mp he with rfl | het
        · simpa using hb
        · have hbe : b.1 < e.1 := hbt e het
          simp only [decide_eq_true_eq]
          omega
      rw [hc, List.insertIdx_zero, List.pairwise_cons]
      constructor
      · intro e he
        rcases List.mem_cons.mp he with rfl | het
        · exact hxb
        · have := hbt e het
          omega
      · exact hp

/-- Every code point the insertion encoder emits is a digit or letter,
in particular at least `0x30` (so never the `-` delimiter `0x2D`). -/
theorem mem_encodeInsertions_digits :
    ∀ (ins : List (Nat × Nat)) (st : EncState),
      ∀ c ∈ (encodeInsertions st ins).1, 0x30 ≤ c := by
  intro ins
  induction ins with
  | nil =>
    intro st c hc
    simp [encodeInsertions] at hc
  | cons q rest ih =>
    intro st c hc
    rw [encodeInsertions] at hc
    dsimp only at hc
    rcases List.mem_append.mp hc with h1 | h2
    · rw [encStep] at h1
      dsimp only at h1
      exact mem_encodeDigits _ _ _ c h1
    · exact ih _ c h2

theorem div_mod_mul_add (A len P : Nat) (h : P < len) :
    (A * len + P) / len = A ∧ (A * len + P) % len = P := by
  constructor
  · rw [Nat.add_comm, Nat.mul_comm, Nat.add_mul_div_left _ _ (by omega)]
    rw [Nat.div_eq_of_lt h, Nat.zero_add]
  · rw [Nat.add_comm, Nat.mul_comm, Nat.add_mul_mod_self_left]
    exact Nat.mod_eq_of_lt h

/-- One iteration of the decoder over the digits `encStep` emitted lands
exactly in the encoder's successor state: same codepoint, bias, insertion
index, and output (up to dropping the original indices). -/
theorem decodeLoop_encStep (st : EncState) (q : Nat × Nat) (pre X : Str)
    (hq1n : st.n ≤ q.1) (hq1max : q.1 ≤ 0x10FFFF)
    (hstep : st.i ≤ (q.1 - st.n) * (st.out.length + 1)
      + st.out.countP (fun e => decide (e.1 < q.2))) :
    decodeLoop (pre ++ ((encStep st q).1 ++ X)) pre.length st.n st.bias st.i
        (st.out.map (·.2))
      = decodeLoop (pre ++ ((encStep st q).1 ++ X)) (pre ++ (encStep st q).1).length
          (encStep st q).2.n (encStep st q).2.bias (encStep st q).2.i
          ((encStep st q).2.out.map (·.2)) := by
  simp only [encStep]
  have hne := encodeDigits_ne_nil st.bias ((q.1 - st.n) * (st.out.length + 1)
    + st.out.countP (fun e => decide (e.1 < q.2)) - st.i) 36
  have hpos := List.length_pos.mpr hne
  have hlen : pre.length < (pre ++ (encodeDigits st.bias ((q.1 - st.n) * (st.out.length + 1)
      + st.out.countP (fun e => decide (e.1 < q.2)) - st.i) 36 ++ X)).length := by
    simp only [List.length_append]
    omega
  rw [decodeLoop, dif_pos hlen]
  dsimp only
  rw [readDigits_encodeDigits st.bias]
  dsimp only
  simp only [List.length_map, Nat.mul_one]
  have hiD : st.i + ((q.1 - st.n) * (st.out.length + 1)
      + st.out.countP (fun e => decide (e.1 < q.2)) - st.i)
      = (q.1 - st.n) * (st.out.length + 1)
        + st.out.countP (fun e => decide (e.1 < q.2)) := by
    omega
  have hPlt : st.out.countP (fun e => decide (e.1 < q.2)) < st.out.length + 1 :=
    Nat.lt_succ_of_le (List.countP_le_length _)
  have hdm := div_mod_mul_add (q.1 - st.n) (st.out.length + 1)
    (st.out.countP (fun e => decide (e.1 < q.2))) hPlt
  have e_div : st.n + (st.i + ((q.1 - st.n) * (st.out.length + 1)
      + st.out.countP (fun e => decide (e.1 < q.2)) - st.i)) / (st.out.length + 1)
      = q.1 := by
    rw [hiD, hdm.1]
    omega
  have e_mod : (st.i + ((q.1 - st.n) * (st.out.length + 1)
      + st.out.countP (fun e => decide (e.1 < q.2)) - st.i)) % (st.out.length + 1)
      = st.out.countP (fun e => decide (e.1 < q.2)) := by
    rw [hiD, hdm.2]
  have e_sub : st.i + ((q.1 - st.n) * (st.out.length + 1)
      + st.out.countP (fun e => decide (e.1 < q.2)) - st.i) - st.i
      = (q.1 - st.n) * (st.out.length + 1)
        + st.out.countP (fun e => decide (e.1 < q.2)) - st.i := by
    omega
  rw [e_sub, e_div, e_mod]
  rw [if_neg (show ¬ (0x10FFFF < q.1) by omega)]
  have hout : (st.out.map (·.2)).insertIdx
        (st.out.countP (fun e => decide (e.1 < q.2))) q.1
      = (st.out.insertIdx (st.out.countP (fun e => decide (e.1 < q.2)))
          (q.2, q.1)).map (·.2) := by
    rw [map_insertIdx]
  rw [hout]
  rw [show pre.length + (encodeDigits st.bias ((q.1 - st.n) * (st.out.length + 1)
      + st.out.countP (fun e => decide (e.1 < q.2)) - st.i) 36).length
      = (pre ++ encodeDigits st.bias ((q.1 - st.n) * (st.out.length + 1)
        + st.out.countP (fun e => decide (e.1 < q.2)) - st.i) 36).length from by simp]

/-- Decoding the digits that `encodeInsertions` emits, starting from the
mirrored decoder state, reproduces the encoder's final output (sans the
index bookkeeping), which is a permutation of the initial entries plus the
processed insertions and stays sorted by original index. -/
theorem decodeLoop_encodeInsertions :
    ∀ (ins : List (Nat × Nat)) (st : EncState) (pre : Str),
      ins.Pairwise (fun a b => lexLeB a b = true) →
      (st.out.map (·.1) ++ ins.map (·.2)).Nodup →
      (∀ q ∈ ins, st.n ≤ q.1) →
      (∀ q ∈ ins, q.1 = st.n →
        st.i ≤ st.out.countP (fun e => decide (e.1 < q.2))) →
      st.i ≤ st.out.length + 1 →
      (∀ q ∈ ins, q.1 ≤ 0x10FFFF) →
      st.out.Pairwise (fun a b => a.1 < b.1) →
      decodeLoop (pre ++ (encodeInsertions st ins).1) pre.length st.n st.bias st.i
          (st.out.map (·.2))
        = some ((encodeInsertions st ins).2.out.map (·.2))
      ∧ List.Perm (encodeInsertions st ins).2.out
          (st.out ++ ins.map (fun q => (q.2, q.1)))
      ∧ (encodeInsertions st ins).2.out.Pairwise (fun a b => a.1 < b.1) := by
  intro ins
  induction ins with
  | nil =>
    intro st pre _ _ _ _ _ _ hsort
    refine ⟨?_, by simp [encodeInsertions], by simp [encodeInsertions, hsort]⟩
    simp only [encodeInsertions]
    rw [List.append_nil, decodeLoop, dif_neg (lt_irrefl pre.length)]
  | cons q rest ih =>
    intro st pre hpair hnd hn hK hi hmax hsort
    have hq1n : st.n ≤ q.1 := hn q (List.mem_cons_self _ _)
    have hq1max : q.1 ≤ 0x10FFFF := hmax q (List.mem_cons_self _ _)
    rcases List.pairwise_cons.mp hpair with ⟨hqrest, hpairr⟩
    have hP_le : st.out.countP (fun e => decide (e.1 < q.2)) ≤ st.out.length :=
      List.countP_le_length _
    have hstep : st.i ≤ (q.1 - st.n) * (st.out.length + 1)
        + st.out.countP (fun e => decide (e.1 < q.2)) := by
      by_cases hq : q.1 = st.n
      · have := hK q (List.mem_cons_self _ _) hq
        omega
      · have h2 : st.out.length + 1 ≤ (q.1 - st.n) * (st.out.length + 1) :=
          Nat.le_mul_of_pos_left _ (by omega)
        omega
    simp only [List.map_cons] at hnd
    have hndr := hnd
    rw [List.nodup_append] at hndr
    have hfresh : ∀ e ∈ st.out, e.1 ≠ q.2 := by
      intro e he heq
      apply hndr.2.2 (List.mem_map_of_mem (·.1) he)
      rw [heq]
      exact List.mem_cons_self _ _
    have hq2notr : q.2 ∉ rest.map (·.2) := by
      have := hndr.2.1
      rw [List.nodup_cons] at this
      exact this.1
    -- the encoder successor state, componentwise
    have hst1 : (encStep st q).1 = encodeDigits st.bias
        ((q.1 - st.n) * (st.out.length + 1)
          + st.out.countP (fun e => decide (e.1 < q.2)) - st.i) 36 := by
      simp only [encStep]
    have hstout : (encStep st q).2.out = st.out.insertIdx
        (st.out.countP (fun e => decide (e.1 < q.2))) (q.2, q.1) := by
      simp only [encStep]
    have hstn : (encStep st q).2.n = q.1 := by
      simp only [encStep]
    have hsti : (encStep st q).2.i
        = st.out.countP (fun e => decide (e.1 < q.2)) + 1 := by
      simp only [encStep]
    have houtperm : List.Perm (encStep st q).2.out ((q.2, q.1) :: st.out) := by
      rw [hstout]
      exact insertIdx_perm _ _ _ hP_le
    have houtlen : (encStep st q).2.out.length = st.out.length + 1 := by
      rw [houtperm.length_eq]
      simp
    -- invariants for the recursive call
    have hpair' : rest.Pairwise (fun a b => lexLeB a b = true) := hpairr
    have hnd' : ((encStep st q).2.out.map (·.1) ++ rest.map (·.2)).Nodup := by
      have h1 : List.Perm ((encStep st q).2.out.map (·.1) ++ rest.map (·.2))
          (q.2 :: (st.out.map (·.1) ++ rest.map (·.2))) :=
        ((houtperm.map (·.1)).append_right _)
      exact (List.perm_middle.trans h1.symm).nodup hnd
    have hn' : ∀ p ∈ rest, (encStep st q).2.n ≤ p.1 := by
      intro p hp
      rw [hstn]
      have := hqrest p hp
      unfold lexLeB at this
      simp only [decide_eq_true_eq] at this
      omega
    have hK' : ∀ p ∈ rest, p.1 = (encStep st q).2.n →
        (encStep st q).2.i ≤ (encStep st q).2.out.countP
          (fun e => decide (e.1 < p.2)) := by
      intro p hp hpn
      rw [hstn] at hpn
      rw [hsti, hstout]
      have hlex := hqrest p hp
      unfold lexLeB at hlex
      simp only [decide_eq_true_eq] at hlex
      have hq2le : q.2 ≤ p.2 := by omega
      have hq2ne : q.2 ≠ p.2 := by
        intro heq
        exact hq2notr (heq ▸ List.mem_map_of_mem (·.2) hp)
      have hcnt := countP_insertIdx (fun e => decide (e.1 < p.2)) (q.2, q.1)
        (st.out.countP (fun e => decide (e.1 < q.2))) st.out hP_le
      rw [hcnt, if_pos (by simp only [decide_eq_true_eq]; omega)]
      have hmono : st.out.countP (fun e => decide (e.1 < q.2))
          ≤ st.out.countP (fun e => decide (e.1 < p.2)) := by
        apply List.countP_mono_left
        intro e _ he
        simp only [decide_eq_true_eq] at he ⊢
        omega
      omega
    have hi' : (encStep st q).2.i ≤ (encStep st q).2.out.length + 1 := by
      rw [hsti, houtlen]
      omega
    have hmax' : ∀ p ∈ rest, p.1 ≤ 0x10FFFF :=
      fun p hp => hmax p (List.mem_cons_of_mem _ hp)
    have hsort' : (encStep st q).2.out.Pairwise (fun a b => a.1 < b.1) := by
      rw [hstout]
      exact pairwise_insertIdx_countP (q.2, q.1) st.out hsort hfresh
    have IH := ih (encStep st q).2 (pre ++ (encStep st q).1)
      hpair' hnd' hn' hK' hi' hmax' hsort'
    refine ⟨?_, ?_, ?_⟩
    · simp only [encodeInsertions]
      rw [decodeLoop_encStep st q pre (encodeInsertions (encStep st q).2 rest).1
        hq1n hq1max hstep]
      rw [show pre ++ ((encStep st q).1 ++ (encodeInsertions (encStep st q).2 rest).1)
        = (pre ++ (encStep st q).1) ++ (encodeInsertions (encStep st q).2 rest).1
        from by simp]
      exact IH.1
    · simp only [encodeInsertions]
      refine IH.2.1.trans ?_
      refine ((houtperm.append_right _).trans ?_)
      simp only [List.map_cons]
      exact List.perm_middle.symm
    · simp only [encodeInsertions]
      exact IH.2.2

theorem map_snd_filter_enumFrom {α : Type} (p : α → Bool) :
    ∀ (l : List α) (n : Nat),
      ((l.enumFrom n).filter (fun e => p e.2)).map (·.2) = l.filter p := by
  intro l
  induction l with
  | nil => intro n; rfl
  | cons a t ih =>
    intro n
    simp only [List.enumFrom, List.filter_cons]
    dsimp only
    by_cases hp : p a = true
    · rw [if_pos hp, if_pos hp, List.map_cons, ih]
    · rw [if_neg hp, if_neg hp, ih]

theorem findIdx_append_none {α : Type} (p : α → Bool) (x : α) (hx : p x = true) :
    ∀ (A B : List α) (i : Nat), (∀ a ∈ A, p a = false) →
      (A ++ x :: B).findIdx? p i = some (i + A.length) := by
  intro A
  induction A with
  | nil =>
    intro B i _
    rw [List.nil_append, List.findIdx?_cons, if_pos hx]
    simp
  | cons a A ih =>
    intro B i h
    rw [List.cons_append, List.findIdx?_cons,
      if_neg (by simp [h a (List.mem_cons_self _ _)])]
    rw [ih B (i + 1) (fun b hb => h b (List.mem_cons_of_mem _ hb))]
    congr 1
    simp only [List.length_cons]
    omega

theorem lastIndexOf_delim (basic digits : Str) (hd : ∀ c ∈ digits, c ≠ 0x2D) :
    lastIndexOf (basic ++ 0x2D :: digits) 0x2D = (basic.length : Int) := by
  unfold lastIndexOf
  have hrev : (basic ++ 0x2D :: digits).reverse
      = digits.reverse ++ 0x2D :: basic.reverse := by
    rw [List.reverse_append, List.reverse_cons, List.append_assoc,
      List.singleton_append]
  rw [hrev, findIdx_append_none _ 0x2D (by simp) digits.reverse basic.reverse 0
    (fun a ha => decide_eq_false (hd a (List.mem_reverse.mp ha)))]
  dsimp only
  simp only [List.length_append, List.length_cons, List.length_reverse,
    Nat.zero_add]
  omega

theorem lastIndexOf_not_mem (l : Str) (c : Nat) (hc : c ∉ l) :
    lastIndexOf l c = -1 := by
  unfold lastIndexOf
  cases hf : l.reverse.findIdx? (fun x => decide (x = c)) with
  | none => rfl
  | some j =>
    exfalso
    rcases findIdx?_decomp _ l.reverse 0 j hf with ⟨_, A, x, B, hl, _, hp⟩
    have hxc : x = c := of_decide_eq_true hp
    apply hc
    rw [← List.mem_reverse, hl, ← hxc]
    exact List.mem_append.mpr (Or.inr (List.mem_cons_self _ _))

theorem mem_intercalate_of_mem (sep : Str) :
    ∀ (ls : List Str) (pl : Str) (c : Nat), pl ∈ ls → c ∈ pl →
      c ∈ List.intercalate sep ls := by
  intro ls
  induction ls with
  | nil => intro pl c h; cases h
  | cons a t ih =>
    intro pl c h hc
    cases t with
    | nil =>
      have hpa : pl = a := by simpa using h
      subst hpa
      simpa [List.intercalate] using hc
    | cons b u =>
      simp only [List.intercalate, List.intersperse_cons_cons, List.flatten_cons]
      rcases List.mem_cons.mp h with rfl | hm
      · exact List.mem_append.mpr (Or.inl hc)
      · refine List.mem_append.mpr (Or.inr (List.mem_append.mpr (Or.inr ?_)))
        have := ih pl c hm hc
        simpa [List.intercalate] using this

theorem mem_of_mem_splitOnDot {c : Nat} {pl d : Str}
    (hpl : pl ∈ splitOnDot d) (hc : c ∈ pl) : c ∈ d := by
  have h : List.intercalate [0x2E] (d.splitOn 0x2E) = d :=
    List.intercalate_splitOn d 0x2E
  rw [← h]
  exact mem_intercalate_of_mem [0x2E] (d.splitOn 0x2E) pl c hpl hc

/-- Decoding inverts the spec-modelled Bootstring encoder on every label
whose code points lie within the Unicode range. -/
theorem punycode_decode_encode (l : Str) (hl : ∀ c ∈ l, c ≤ 0x10FFFF) :
    decodePunycodeLabel (str "xn--" ++ punycodeEncode l) = some l := by
  have hbasic : (l.enum.filter (fun e => decide (e.2 < 128))).map (·.2)
      = l.filter (fun c => decide (c < 128)) := by
    have h := map_snd_filter_enumFrom (fun c => decide (c < 128)) l 0
    exact h
  have hpair := @List.sorted_mergeSort _ lexLeB lexLeB_trans lexLeB_total
    ((l.enum.filter (fun e => decide (128 ≤ e.2))).map (fun e => (e.2, e.1)))
  have hmem_ins : ∀ p ∈ ((l.enum.filter (fun e => decide (128 ≤ e.2))).map
      (fun e => (e.2, e.1))).mergeSort lexLeB, 128 ≤ p.1 ∧ p.1 ∈ l := by
    intro p hp
    have hp2 := List.mem_mergeSort.mp hp
    rcases List.mem_map.mp hp2 with ⟨e, he, rfl⟩
    rcases List.mem_filter.mp he with ⟨hee, hts⟩
    exact ⟨of_decide_eq_true hts, List.snd_mem_of_mem_enum hee⟩
  have hins_snd_perm : List.Perm
      ((((l.enum.filter (fun e => decide (128 ≤ e.2))).map
        (fun e => (e.2, e.1))).mergeSort lexLeB).map (·.2))
      ((l.enum.filter (fun e => decide (128 ≤ e.2))).map (·.1)) := by
    have h := (List.mergeSort_perm ((l.enum.filter (fun e => decide (128 ≤ e.2))).map
      (fun e => (e.2, e.1))) lexLeB).map (·.2)
    rw [List.map_map] at h
    have hcomp : ((fun (q : ℕ × ℕ) => q.2) ∘ (fun (e : ℕ × ℕ) => (e.2, e.1)))
        = fun (e : ℕ × ℕ) => e.1 := by
      funext e
      rfl
    rw [hcomp] at h
    exact h
  have hfilter_ge : l.enum.filter (fun e => !(decide (e.2 < 128)))
      = l.enum.filter (fun e => decide (128 ≤ e.2)) := by
    apply List.filter_congr
    intro e _
    rw [← decide_not]
    exact decide_eq_decide.mpr (by omega)
  have hsplitperm : List.Perm
      (l.enum.filter (fun e => decide (e.2 < 128))
        ++ l.enum.filter (fun e => decide (128 ≤ e.2))) l.enum := by
    have h3 := List.filter_append_perm (fun e => decide (e.2 < 128)) l.enum
    rw [hfilter_ge] at h3
    exact h3
  have hnodup_enum_fst : (l.enum.map (·.1)).Nodup :=
    ((enum_pairwise_lt l).map (fun e : ℕ × ℕ => e.1)
      (fun a b h => h)).imp Nat.ne_of_lt
  have hnd : ((l.enum.filter (fun e => decide (e.2 < 128))).map (·.1)
      ++ ((((l.enum.filter (fun e => decide (128 ≤ e.2))).map
        (fun e => (e.2, e.1))).mergeSort lexLeB).map (·.2))).Nodup := by
    have hp : List.Perm
        ((l.enum.filter (fun e => decide (e.2 < 128))).map (·.1)
          ++ ((((l.enum.filter (fun e => decide (128 ≤ e.2))).map
            (fun e => (e.2, e.1))).mergeSort lexLeB).map (·.2)))
        (l.enum.map (·.1)) := by
      refine (hins_snd_perm.append_left _).trans ?_
      rw [← List.map_append]
      exact hsplitperm.map (·.1)
    exact hp.symm.nodup hnodup_enum_fst
  have hswapperm : List.Perm
      ((((l.enum.filter (fun e => decide (128 ≤ e.2))).map
        (fun e => (e.2, e.1))).mergeSort lexLeB).map (fun q => (q.2, q.1)))
      (l.enum.filter (fun e => decide (128 ≤ e.2))) := by
    have h := (List.mergeSort_perm ((l.enum.filter (fun e => decide (128 ≤ e.2))).map
      (fun e => (e.2, e.1))) lexLeB).map (fun q => (q.2, q.1))
    rw [List.map_map] at h
    have hcomp : ((fun (q : ℕ × ℕ) => (q.2, q.1)) ∘ (fun (e : ℕ × ℕ) => (e.2, e.1)))
        = id := by
      funext e
      rfl
    rw [hcomp, List.map_id] at h
    exact h
  have hn : ∀ p ∈ ((l.enum.filter (fun e => decide (128 ≤ e.2))).map
      (fun e => (e.2, e.1))).mergeSort lexLeB, 128 ≤ p.1 :=
    fun p hp => (hmem_ins p hp).1
  have hmax : ∀ p ∈ ((l.enum.filter (fun e => decide (128 ≤ e.2))).map
      (fun e => (e.2, e.1))).mergeSort lexLeB, p.1 ≤ 0x10FFFF :=
    fun p hp => hl _ (hmem_ins p hp).2
  have hsortE : (l.enum.filter (fun e => decide (e.2 < 128))).Pairwise
      (fun a b => a.1 < b.1) :=
    (enum_pairwise_lt l).sublist (List.filter_sublist _)
  have hms := decodeLoop_encodeInsertions
    (((l.enum.filter (fun e => decide (128 ≤ e.2))).map
      (fun e => (e.2, e.1))).mergeSort lexLeB)
    ⟨l.enum.filter (fun e => decide (e.2 < 128)), 128, 0, 72⟩ []
    hpair hnd hn (fun p hp hpn => Nat.zero_le _) (Nat.zero_le _) hmax hsortE
  haveI hanti : IsAntisymm (ℕ × ℕ) (fun a b => a.1 < b.1) :=
    ⟨fun a b h1 h2 => absurd (lt_trans h1 h2) (lt_irrefl _)⟩
  have hfinal_eq : (encodeInsertions
      ⟨l.enum.filter (fun e => decide (e.2 < 128)), 128, 0, 72⟩
      (((l.enum.filter (fun e => decide (128 ≤ e.2))).map
        (fun e => (e.2, e.1))).mergeSort lexLeB)).2.out = l.enum := by
    refine List.eq_of_perm_of_sorted (hms.2.1.trans ?_) hms.2.2 (enum_pairwise_lt l)
    exact (hswapperm.append_left _).trans hsplitperm
  have hfinal_map : (encodeInsertions
      ⟨l.enum.filter (fun e => decide (e.2 < 128)), 128, 0, 72⟩
      (((l.enum.filter (fun e => decide (128 ≤ e.2))).map
        (fun e => (e.2, e.1))).mergeSort lexLeB)).2.out.map (·.2) = l := by
    rw [hfinal_eq]
    exact List.enum_map_snd l
  have hdig : ∀ c ∈ (encodeInsertions
      ⟨l.enum.filter (fun e => decide (e.2 < 128)), 128, 0, 72⟩
      (((l.enum.filter (fun e => decide (128 ≤ e.2))).map
        (fun e => (e.2, e.1))).mergeSort lexLeB)).1, c ≠ 0x2D := by
    intro c hc heq
    have := mem_encodeInsertions_digits _ _ c hc
    omega
  unfold decodePunycodeLabel
  rw [List.take_left' (show (str "xn--").length = 4 from rfl)]
  rw [if_pos rfl]
  dsimp only
  rw [List.drop_left' (show (str "xn--").length = 4 from rfl)]
  simp only [punycodeEncode]
  by_cases hB : l.filter (fun c => decide (c < 128)) = []
  · rw [hB]
    rw [show (if (([] : Str)).isEmpty then ([] : Str) else [0x2D]) = [] from rfl]
    simp only [List.nil_append]
    have hlast : lastIndexOf (encodeInsertions
        ⟨l.enum.filter (fun e => decide (e.2 < 128)), 128, 0, 72⟩
        (((l.enum.filter (fun e => decide (128 ≤ e.2))).map
          (fun e => (e.2, e.1))).mergeSort lexLeB)).1 0x2D = -1 :=
      lastIndexOf_not_mem _ 0x2D (fun hmem => hdig 0x2D hmem rfl)
    rw [hlast]
    rw [if_neg (by decide : ¬ ((0 : ℤ) < -1)), if_neg (by decide : ¬ ((0 : ℤ) < -1))]
    have hdec := hms.1
    dsimp only at hdec
    simp only [List.nil_append, List.length_nil] at hdec
    rw [hbasic, hB] at hdec
    rw [hdec, hfinal_map]
  · have hBpos : 0 < (l.filter (fun c => decide (c < 128))).length :=
      List.length_pos.mpr hB
    have hne2 : ¬ ((l.filter (fun c => decide (c < 128))).isEmpty = true) := by
      simp only [List.isEmpty_eq_true]
      exact hB
    rw [if_neg hne2]
    have hassoc : (l.filter (fun c => decide (c < 128)) ++ [0x2D])
        ++ (encodeInsertions
          ⟨l.enum.filter (fun e => decide (e.2 < 128)), 128, 0, 72⟩
          (((l.enum.filter (fun e => decide (128 ≤ e.2))).map
            (fun e => (e.2, e.1))).mergeSort lexLeB)).1
        = l.filter (fun c => decide (c < 128)) ++ 0x2D :: (encodeInsertions
          ⟨l.enum.filter (fun e => decide (e.2 < 128)), 128, 0, 72⟩
          (((l.enum.filter (fun e => decide (128 ≤ e.2))).map
            (fun e => (e.2, e.1))).mergeSort lexLeB)).1 := by
      simp
    rw [hassoc]
    rw [lastIndexOf_delim _ _ hdig]
    rw [if_pos (show (0 : ℤ) < ((l.filter (fun c => decide (c < 128))).length : ℤ)
        from by exact_mod_cast hBpos),
      if_pos (show (0 : ℤ) < ((l.filter (fun c => decide (c < 128))).length : ℤ)
        from by exact_mod_cast hBpos)]
    rw [Int.toNat_natCast]
    rw [List.take_left]
    have hdec := (decodeLoop_encodeInsertions
      (((l.enum.filter (fun e => decide (128 ≤ e.2))).map
        (fun e => (e.2, e.1))).mergeSort lexLeB)
      ⟨l.enum.filter (fun e => decide (e.2 < 128)), 128, 0, 72⟩
      (l.filter (fun c => decide (c < 128)) ++ [0x2D])
      hpair hnd hn (fun p hp hpn => Nat.zero_le _) (Nat.zero_le _) hmax hsortE).1
    dsimp only at hdec
    rw [hassoc] at hdec
    have hlen2 : (l.filter (fun c => decide (c < 128)) ++ [0x2D]).length
        = (l.filter (fun c => decide (c < 128))).length + 1 := by
      simp
    rw [hlen2] at hdec
    rw [hbasic] at hdec
    rw [hdec, hfinal_map]

/-! ## C6 -/

/-- C6: the ACE round-trip. `toPunycode` returns an ASCII-only domain
unchanged; on a label containing a non-ASCII code point the ACE form
carries the `xn--` marker (and `toPunycode` of that dotless label is
exactly that ACE form); `decodePunycodeLabel` applied to the encoded label
reconstructs the original label; and on a malformed domain (a code point
outside the Unicode range, which the ACE transform cannot represent)
`toPunycode` returns the input unchanged instead of raising. -/
theorem toPunycode_roundtrip (d l d2 : Str)
    (hd : ∀ c ∈ d, c < 128)
    (hl : ∀ c ∈ l, c ≤ 0x10FFFF)
    (hla : ¬ ∀ c ∈ l, c < 128)
    (hd2 : ¬ ∀ c ∈ d2, c ≤ 0x10FFFF) :
    toPunycode d = d
    ∧ (encodeLabelACE l).take 4 = str "xn--"
    ∧ (0x2E ∉ l → toPunycode l = encodeLabelACE l)
    ∧ decodePunycodeLabel (encodeLabelACE l) = some l
    ∧ toPunycode d2 = d2 := by
  have hiface : encodeLabelACE l = str "xn--" ++ punycodeEncode l := by
    unfold encodeLabelACE
    rw [if_neg (show ¬ (l.all (fun c => decide (c < 128)) = true) from
      fun hall => hla (fun c hc => of_decide_eq_true (List.all_eq_true.mp hall c hc)))]
  refine ⟨?_, ?_, ?_, ?_, ?_⟩
  · unfold toPunycode
    rw [if_pos (List.all_eq_true.mpr (fun c hc => decide_eq_true
      (show c ≤ 0x10FFFF by have := hd c hc; omega)))]
    have hpieces : ∀ pl ∈ splitOnDot d, encodeLabelACE pl = pl := by
      intro pl hpl
      unfold encodeLabelACE
      rw [if_pos (List.all_eq_true.mpr (fun c hc => decide_eq_true
        (hd c (mem_of_mem_splitOnDot hpl hc))))]
    rw [List.map_congr_left hpieces, List.map_id']
    unfold joinDots splitOnDot
    exact List.intercalate_splitOn d 0x2E
  · rw [hiface]
    exact List.take_left' (show (str "xn--").length = 4 from rfl)
  · intro hdot
    unfold toPunycode
    rw [if_pos (List.all_eq_true.mpr (fun c hc => decide_eq_true (hl c hc)))]
    have hsplit1 : splitOnDot l = [l] := by
      unfold splitOnDot List.splitOn
      exact List.splitOnP_eq_single _ _ (fun y hy => by
        simp only [beq_iff_eq]
        intro heq
        exact hdot (heq ▸ hy))
    rw [hsplit1]
    simp [joinDots, List.intercalate]
  · rw [hiface]
    exact punycode_decode_encode l hl
  · unfold toPunycode
    rw [if_neg (show ¬ (d2.all (fun c => decide (c ≤ 0x10FFFF)) = true) from
      fun hall => hd2 (fun c hc => of_decide_eq_true (List.all_eq_true.mp hall c hc)))]

/-- Witness for C6: the ASCII domain `ab.com` passes through unchanged,
and the label `aб` (with a Cyrillic character) decodes back from its ACE
encoding. -/
theorem toPunycode_roundtrip_witness :
    toPunycode (str "ab.com") = str "ab.com"
    ∧ decodePunycodeLabel (encodeLabelACE [97, 0x431]) = some [97, 0x431] := by
  have h := toPunycode_roundtrip (str "ab.com") [97, 0x431] [0x110000]
    (by decide) (by decide) (by decide) (by decide)
  exact ⟨h.1, h.2.2.2.1⟩

end D0ma1n
